import Mathlib

/-!
Shallow embedding of the biomark biometric watermarking pipeline
(`src/lib/biometric.ts` and `src/lib/docx-handler.ts`) and proofs about it.

Modelling conventions:
* JavaScript strings are modelled as `List Char` (`Str`).  All the strings the
  pipeline manipulates live in the Basic Multilingual Plane, where
  `String.charCodeAt` agrees with `Char.toNat`.
* JavaScript 32-bit integer coercion (`x | 0`, `x & x`) is `toInt32`.
* The JavaScript remainder operator `%` on possibly-negative numbers is
  truncated-division remainder, i.e. `Int.tmod`; `Math.floor(a / b)` is
  `Int.fdiv`.
* Sources of randomness (`crypto.getRandomValues`, `Math.random`) are passed in
  explicitly as a stream `rng : Nat → Nat`, so every function is deterministic
  in its arguments.
* Exceptions are modelled with `Option`/`Except`: a function the source wraps
  in `try { … } catch { return null }` is total here and returns `none`
  exactly where the source returns `null`.
-/

/-- JavaScript strings, modelled as lists of characters. -/
abbrev Str := List Char

/-! ## Zero-width marker characters (biometric.ts, lines 716-720) -/

/-- Zero Width Space U+200B, the bit-0 carrier. -/
def ZERO_BIT : Char := '\u200B'

/-- Zero Width Non-Joiner U+200C, the bit-1 carrier. -/
def ONE_BIT : Char := '\u200C'

/-- Zero Width Joiner U+200D, the byte delimiter. -/
def SEPARATOR : Char := '\u200D'

/-- Membership in the three-character invisible alphabet matched by the
regular expression for U+200B..U+200D in `getUserVisibleText`. -/
def isMarkerChar (c : Char) : Bool :=
  c == ZERO_BIT || c == ONE_BIT || c == SEPARATOR

/-! ## JavaScript character classes -/

/-- Whitespace in the sense of the JavaScript regular-expression class `\s`
and of `String.prototype.trim`: ASCII whitespace, NBSP, the Unicode space
separators, line/paragraph separators and the BOM.  The three zero-width
markers U+200B..U+200D are *not* whitespace. -/
def isJsWhitespace (c : Char) : Bool :=
  c == ' ' || c == '\t' || c == '\n' || c == '\x0b' || c == '\x0c' ||
  c == '\x0d' || c == '\u00a0' || c == '\u1680' ||
  ('\u2000' <= c && c <= '\u200a') ||
  c == '\u2028' || c == '\u2029' || c == '\u202f' || c == '\u205f' ||
  c == '\u3000' || c == '\ufeff'

/-- JavaScript `String.prototype.trim`: drop leading and trailing
whitespace. -/
def jsTrim (s : Str) : Str :=
  ((s.dropWhile isJsWhitespace).reverse.dropWhile isJsWhitespace).reverse

/-! ## Decimal and hexadecimal printing (JavaScript `Number.prototype.toString`) -/

/-- One decimal digit as a character. -/
def digitChar (d : Nat) : Char := Char.ofNat (48 + d)

/-- One hexadecimal digit as a character, lowercase as in JavaScript
`toString(16)`. -/
def hexDigitChar (d : Nat) : Char :=
  if d < 10 then Char.ofNat (48 + d) else Char.ofNat (87 + d)

/-- Digit recursion for `natDecimal`, driven by a fuel argument so the
recursion is structural (the kernel can evaluate it); `fuel = n` always
suffices because `n / 10` shrinks by at least one whenever the recursive
branch is taken. -/
def natDecimalAux : Nat → Nat → Str
  | 0, n => [digitChar n]
  | fuel + 1, n =>
      if n < 10 then [digitChar n]
      else natDecimalAux fuel (n / 10) ++ [digitChar (n % 10)]

/-- Decimal digits of a natural number, most significant first; the JavaScript
rendering of a nonnegative integer. -/
def natDecimal (n : Nat) : Str := natDecimalAux n n

/-- Digit recursion for `natHex`, fuelled like `natDecimalAux`. -/
def natHexAux : Nat → Nat → Str
  | 0, n => [hexDigitChar n]
  | fuel + 1, n =>
      if n < 16 then [hexDigitChar n]
      else natHexAux fuel (n / 16) ++ [hexDigitChar (n % 16)]

/-- Hexadecimal digits of a natural number, most significant first; the
JavaScript rendering `n.toString(16)` for nonnegative `n`. -/
def natHex (n : Nat) : Str := natHexAux n n

/-- JavaScript `v.toString(16)` for an arbitrary integer: a minus sign
followed by the hex digits of the absolute value when `v` is negative. -/
def intHex (v : Int) : Str :=
  if v < 0 then '-' :: natHex v.natAbs else natHex v.toNat

/-- JavaScript `s.padStart(2, '0')`: left-pad with zeros to length two. -/
def padStart2 (s : Str) : Str :=
  if s.length < 2 then List.replicate (2 - s.length) '0' ++ s else s

/-- JavaScript rendering of an integer in decimal (template-literal
interpolation of an integer-valued number). -/
def intDecimal (v : Int) : Str :=
  if v < 0 then '-' :: natDecimal v.natAbs else natDecimal v.toNat

/-! ## 32-bit integer coercion -/

/-- JavaScript `ToInt32` (the effect of `x & x` / `x | 0`): wrap into
`[-2^31, 2^31)`. -/
def toInt32 (v : Int) : Int := (v + 2 ^ 31).emod (2 ^ 32) - 2 ^ 31

/-! ## BiometricEncryptionService: hashing (biometric.ts, lines 992-1017) -/

namespace BiometricEncryptionService

/-- One step of `simpleHash`: `hash = ((hash << 5) - hash) + char;
hash = hash & hash`.  The shift operates on the 32-bit value of `hash`
(which is already an int32 after the previous step) and the whole sum is
coerced back to 32 bits. -/
def simpleHashStep (hash : Int) (c : Char) : Int :=
  toInt32 (toInt32 (hash * 32) - hash + c.toNat)

/-- The `simpleHash` method: fold the step over the string, then
`Math.abs(hash).toString(16)`. -/
def simpleHash (s : Str) : Str :=
  natHex (s.foldl simpleHashStep 0).natAbs

mutual

/-- Whitespace collapsing of `hashContent`'s replacement of every maximal
whitespace run by a single space: state after a non-whitespace character
(or at the start). -/
def collapseWs : Str → Str
  | [] => []
  | c :: cs => if isJsWhitespace c then ' ' :: collapseWsInRun cs else c :: collapseWs cs

/-- Whitespace collapsing, state inside a whitespace run (the space for the
run has already been emitted). -/
def collapseWsInRun : Str → Str
  | [] => []
  | c :: cs => if isJsWhitespace c then collapseWsInRun cs else c :: collapseWs cs

end

/-- The `hashContent` method: trim, collapse whitespace runs to single
spaces, then `simpleHash`. -/
def hashContent (content : Str) : Str :=
  simpleHash (collapseWs (jsTrim content))

/-- The `getUserVisibleText` method: strip every occurrence of the three
zero-width marker characters. -/
def getUserVisibleText (watermarkedText : Str) : Str :=
  watermarkedText.filter (fun c => !isMarkerChar c)

end BiometricEncryptionService

/-! ## Minutiae (biometric.ts, lines 13-18) -/

/-- Minutia type tag: ridge `ending` or `bifurcation`. -/
inductive MinutiaeType where
  | ending
  | bifurcation
deriving DecidableEq

/-- JavaScript rendering of the type tag (the string stored in the `type`
field of `MinutiaePoint`). -/
def MinutiaeType.render : MinutiaeType → Str
  | .ending => "ending".data
  | .bifurcation => "bifurcation".data

/-- A minutia point.  `x`, `y` are pixel coordinates.  The source stores
`angle` as a floating-point number of degrees; the only uses the claims
exercise are `Math.floor(minutia.angle)` (in `encodeMinutia`) and opaque
stringification (in `hashMinutiae`), so the angle is modelled by an integer
(its floor). -/
structure MinutiaePoint where
  x : Int
  y : Int
  angle : Int
  type : MinutiaeType
deriving DecidableEq

namespace BiometricEncryptionService

/-- The string `"x,y,angle,type"` built for one minutia by `hashMinutiae`. -/
def minutiaRender (m : MinutiaePoint) : Str :=
  intDecimal m.x ++ [','] ++ intDecimal m.y ++ [','] ++
  intDecimal m.angle ++ [','] ++ m.type.render

/-- The `hashMinutiae` method: join the per-minutia renderings with `'|'`
and apply `simpleHash`. -/
def hashMinutiae (minutiae : List MinutiaePoint) : Str :=
  simpleHash (List.intercalate ['|'] (minutiae.map minutiaRender))

end BiometricEncryptionService

/-! ## Watermark data structures (biometric.ts, lines 20-51) -/

/-- The `FuzzyVault` interface: shuffled vault points, the hex secret and the
polynomial coefficients over GF(251). -/
structure FuzzyVault where
  vault : List (Int × Int)
  secret : Str
  polynomial : List Int
deriving DecidableEq

/-- The `WatermarkData` interface. -/
structure WatermarkData where
  fingerprintHash : Str
  vault : FuzzyVault
  timestamp : Nat
  contentHash : Str
deriving DecidableEq

/-- The `UltraCompactWatermarkData` interface: the four single-letter fields
actually serialized into the invisible channel. -/
structure UltraCompactWatermarkData where
  f : Str
  s : Str
  t : Nat
  c : Str
deriving DecidableEq

/-- The `WatermarkEmbeddingResult` interface. -/
structure WatermarkEmbeddingResult where
  watermarkedText : Str
  invisiblePayload : Str
deriving DecidableEq

/-! ## DocumentWatermarker: serialization (biometric.ts, lines 679-730) -/

namespace DocumentWatermarker

/-- Digit recursion for `natBin`, fuelled like `natDecimalAux`. -/
def natBinAux : Nat → Nat → Str
  | 0, n => [digitChar n]
  | fuel + 1, n =>
      if n < 2 then [digitChar n]
      else natBinAux fuel (n / 2) ++ [digitChar (n % 2)]

/-- Binary digits of a natural number, most significant first (JavaScript
`n.toString(2)` for nonnegative `n`). -/
def natBin (n : Nat) : Str := natBinAux n n

/-- JavaScript `s.padStart(n, '0')`. -/
def padStartZeros (n : Nat) (s : Str) : Str :=
  if s.length < n then List.replicate (n - s.length) '0' ++ s else s

/-- One character of `dataToBinary`:
`charCode.toString(2).padStart(8, '0')`. -/
def charToBits (c : Char) : Str := padStartZeros 8 (natBin c.toNat)

/-- The JSON rendering `JSON.stringify` produces for an
`UltraCompactWatermarkData` value whose string fields need no escaping. -/
def jsonOfUltraCompact (d : UltraCompactWatermarkData) : Str :=
  "\x7b\"f\":\"".data ++ d.f ++ "\",\"s\":\"".data ++ d.s ++
  "\",\"t\":".data ++ natDecimal d.t ++ ",\"c\":\"".data ++ d.c ++ "\"\x7d".data

/-- The `dataToBinary` method on the ultra-compact record: stringify to JSON,
then concatenate the 8-bit binary code of every character. -/
def dataToBinary (d : UltraCompactWatermarkData) : Str :=
  ((jsonOfUltraCompact d).map charToBits).flatten

/-- The recursion of `binaryToInvisibleText`: map bit characters to markers
and add a `SEPARATOR` after every eighth bit except when it is the last one.
`i` is the zero-based index of the current character. -/
def binaryToInvisibleTextGo : Str → Nat → Str
  | [], _ => []
  | [b], _ => [if b == '1' then ONE_BIT else ZERO_BIT]
  | b :: b2 :: rest, i =>
      (if b == '1' then ONE_BIT else ZERO_BIT) ::
      (if (i + 1) % 8 == 0
        then SEPARATOR :: binaryToInvisibleTextGo (b2 :: rest) (i + 1)
        else binaryToInvisibleTextGo (b2 :: rest) (i + 1))

/-- The `binaryToInvisibleText` method. -/
def binaryToInvisibleText (binary : Str) : Str :=
  binaryToInvisibleTextGo binary 0

/-- The scan of `extractFromZeroWidth`: collect a `'0'` for each
`ZERO_BIT` and a `'1'` for each `ONE_BIT`; `SEPARATOR` and every other
character are skipped. -/
def collectZeroWidthBits : Str → Str
  | [] => []
  | c :: cs =>
      if c == ZERO_BIT then '0' :: collectZeroWidthBits cs
      else if c == ONE_BIT then '1' :: collectZeroWidthBits cs
      else collectZeroWidthBits cs

/-- The `extractFromZeroWidth` method: `null` when no bits were found. -/
def extractFromZeroWidth (text : Str) : Option Str :=
  let collected := collectZeroWidthBits text
  if collected.isEmpty then none else some collected

/-- Split a bit string into groups of eight characters (the last group may be
shorter), as the `substr(i, 8)` loop of `binaryToData` does. -/
def chunksOf8 : Str → List Str
  | [] => []
  | b1 :: b2 :: b3 :: b4 :: b5 :: b6 :: b7 :: b8 :: rest =>
      [b1, b2, b3, b4, b5, b6, b7, b8] :: chunksOf8 rest
  | l => [l]

/-- JavaScript `parseInt(byte, 2)` on a string of binary digit characters. -/
def binValue (s : Str) : Nat :=
  s.foldl (fun a c => 2 * a + (if c == '1' then 1 else 0)) 0

/-! The next few definitions model `JSON.parse` as used by `binaryToData`,
restricted to the canonical object layout that `JSON.stringify` emits for an
`UltraCompactWatermarkData` record with escape-free string fields.  On any
other input the parser answers `none`; the source would either throw there
(caught by `extractWatermark`, which returns `null`) or produce an object
whose single-letter fields are missing, which the orchestrator's comparisons
reject just the same. -/

/-- Consume an expected literal prefix. -/
def expectPrefix (pre l : Str) : Option Str :=
  if l.take pre.length = pre then some (l.drop pre.length) else none

/-- Consume the body of a JSON string literal up to and including the closing
quote (no escape sequences, as none are ever produced for the hash/hex/digit
fields). -/
def takeStringLit (l : Str) : Option (Str × Str) :=
  match l.dropWhile (fun c => c ≠ '"') with
  | '"' :: r => some (l.takeWhile (fun c => c ≠ '"'), r)
  | _ => none

/-- Decimal digit test. -/
def isDigitChar (c : Char) : Bool := '0' ≤ c && c ≤ '9'

/-- Value of a string of decimal digits. -/
def decValue (s : Str) : Nat :=
  s.foldl (fun a c => 10 * a + (c.toNat - 48)) 0

/-- Parser for the canonical serialized form of
`UltraCompactWatermarkData`. -/
def parseUltraCompact (l : Str) : Option UltraCompactWatermarkData := do
  let l ← expectPrefix "\x7b\"f\":\"".data l
  let (fv, l) ← takeStringLit l
  let l ← expectPrefix ",\"s\":\"".data l
  let (sv, l) ← takeStringLit l
  let l ← expectPrefix ",\"t\":".data l
  let digits := l.takeWhile isDigitChar
  if digits.isEmpty then none else
  let l := l.dropWhile isDigitChar
  let l ← expectPrefix ",\"c\":\"".data l
  let (cv, l) ← takeStringLit l
  let l ← expectPrefix "\x7d".data l
  if l.isEmpty then some ⟨fv, sv, decValue digits, cv⟩ else none

/-- The `binaryToData` method: regroup the bits into bytes, decode each byte
as a character and parse the resulting JSON text. -/
def binaryToData (binary : Str) : Option UltraCompactWatermarkData :=
  parseUltraCompact ((chunksOf8 binary).map (fun b => Char.ofNat (binValue b)))

end DocumentWatermarker

/-! ## DocumentWatermarker: payload distribution (biometric.ts, lines 788-854) -/

namespace DocumentWatermarker

/-- Maximal homogeneous runs of whitespace / non-whitespace characters,
built character by character: a character joins the following run when it
has the same whitespace class as that run's first character.  Together with
the boundary empties added by `jsSplitWs` this models JavaScript
`text.split` on a captured whitespace group. -/
def wsRuns : Str → List Str
  | [] => []
  | c :: cs =>
      match wsRuns cs with
      | [] => [[c]]
      | r :: rs =>
          match r with
          | [] => [c] :: r :: rs
          | d :: _ =>
              if isJsWhitespace c == isJsWhitespace d then (c :: r) :: rs
              else [c] :: r :: rs

/-- Whether the first token of a run list is a whitespace run. -/
def headRunIsWs (rs : List Str) : Bool :=
  match rs with
  | (c :: _) :: _ => isJsWhitespace c
  | _ => false

/-- Whether the last token of a run list is a whitespace run. -/
def lastRunIsWs (rs : List Str) : Bool :=
  match rs.getLast? with
  | some (c :: _) => isJsWhitespace c
  | _ => false

/-- JavaScript split on a captured whitespace group: the homogeneous
runs, with an empty piece added before a leading separator and after a
trailing separator, and `[""]` for the empty string. -/
def jsSplitWs (s : Str) : List Str :=
  match wsRuns s with
  | [] => [[]]
  | rs =>
      let rs2 := if headRunIsWs rs then [] :: rs else rs
      if lastRunIsWs rs2 then rs2 ++ [[]] else rs2

/-- The word-slot test of `distributeInvisiblePayload`:
the token trims to something non-empty, and it is not a pure whitespace
run. -/
def isWordToken (t : Str) : Bool :=
  decide (0 < (jsTrim t).length) && !(!t.isEmpty && t.all isJsWhitespace)

/-- Indexes of the word-bearing tokens. -/
def wordIndexesOf (tokens : List Str) : List Nat :=
  (List.range tokens.length).filter (fun i => isWordToken (tokens.getD i []))

/-- The slot-count computation of `distributeInvisiblePayload`
(biometric.ts, lines 809-811).  `Math.floor(wordCount * 0.3)` is
`3 * wordCount / 10` and `Math.ceil(payloadLength / 32)` is
`(payloadLength + 31) / 32`; both coincide with the floating-point
computation for every list length a document can produce. -/
def textSlotCount (wordCount payloadLength : Nat) : Nat :=
  let maxSlots := max 1 (3 * wordCount / 10)
  let minSlots := max 1 ((payloadLength + 31) / 32)
  min wordCount (max 1 (min maxSlots minSlots))

/-- The insertion scan of `pickRandomWordSlots`: walk the stream of random
values, mapping each to a word index and inserting it if new, until `count`
slots are selected (JavaScript `Set` keeps insertion order). -/
def pickLoop (wordIndexes : List Nat) (count : Nat) : List Nat → List Nat → List Nat
  | [], selected => selected
  | v :: vs, selected =>
      if count ≤ selected.length then selected
      else
        let cand := wordIndexes.getD (v % wordIndexes.length) 0
        pickLoop wordIndexes count vs
          (if selected.contains cand then selected else selected ++ [cand])

/-- The `pickRandomWordSlots` method.  When `count` covers all candidates the
source returns them directly; otherwise it draws `count * 2`-element random
buffers for at most `count * 5` attempts, which is modelled by one stream of
`count * 5 * (count * 2)` random draws consumed in order. -/
def pickRandomWordSlots (rng : Nat → Nat) (wordIndexes : List Nat) (count : Nat) : List Nat :=
  if wordIndexes.length ≤ count then wordIndexes
  else pickLoop wordIndexes count ((List.range (count * 5 * (count * 2))).map rng) []

/-- The chunk-appending loop of `distributeInvisiblePayload`: walk the
selected slots in ascending order, appending the next `chunkSize` payload
characters to each token, stopping when the payload is exhausted.  Returns
the updated tokens and the unconsumed payload tail. -/
def appendChunks (tokens : List Str) (slots : List Nat) (payload : Str)
    (chunkSize : Nat) : List Str × Str :=
  match slots with
  | [] => (tokens, payload)
  | slot :: rest =>
      if payload.isEmpty then (tokens, payload)
      else
        appendChunks (tokens.set slot (tokens.getD slot [] ++ payload.take chunkSize))
          rest (payload.drop chunkSize) chunkSize

/-- The final phase of `distributeInvisiblePayload`: run the
chunk-appending loop over the (already sorted) selected slots, append any
unconsumed payload tail to the last selected slot, and join the tokens back
together. -/
def distributeWithSlots (tokens : List Str) (selectedSlots : List Nat)
    (payload : Str) (chunkSize : Nat) : Str :=
  let step := appendChunks tokens selectedSlots payload chunkSize
  let tokens3 :=
    if step.2.isEmpty then step.1
    else
      match selectedSlots.getLast? with
      | none => step.1
      | some lastSlot => step.1.set lastSlot (step.1.getD lastSlot [] ++ step.2)
  tokens3.flatten

/-- The `distributeInvisiblePayload` method.  The random slot choice is
driven by the explicit stream `rng`.  The `chunkSize` ceiling division is
written for a non-empty slot selection, which the surrounding branch
guarantees (the word-index list is non-empty and at least one slot is always
selected). -/
def distributeInvisiblePayload (rng : Nat → Nat) (text payload : Str) : Str :=
  if payload.isEmpty then text
  else
    let tokens := jsSplitWs text
    if tokens.isEmpty then payload ++ text
    else
      let wordIndexes := wordIndexesOf tokens
      if wordIndexes.isEmpty then payload ++ text
      else
        let slotsToUse := textSlotCount wordIndexes.length payload.length
        let selectedSlots :=
          List.insertionSort (· ≤ ·) (pickRandomWordSlots rng wordIndexes slotsToUse)
        let chunkSize := max 8 ((payload.length + selectedSlots.length - 1) / selectedSlots.length)
        distributeWithSlots tokens selectedSlots payload chunkSize

/-- The `embedWithZeroWidth` method simply forwards to the distributor. -/
def embedWithZeroWidth (rng : Nat → Nat) (text payload : Str) : Str :=
  distributeInvisiblePayload rng text payload

/-- The `embedWatermark` method: project the record onto the ultra-compact
single-letter form, serialize it to bits, turn the bits into zero-width
characters, and distribute the result through the text. -/
def embedWatermark (rng : Nat → Nat) (text : Str) (watermarkData : WatermarkData) :
    WatermarkEmbeddingResult :=
  let ultraCompactData : UltraCompactWatermarkData :=
    { f := watermarkData.fingerprintHash
      s := watermarkData.vault.secret
      t := watermarkData.timestamp
      c := watermarkData.contentHash }
  let watermarkBinary := dataToBinary ultraCompactData
  let invisiblePayload := binaryToInvisibleText watermarkBinary
  { watermarkedText := embedWithZeroWidth rng text invisiblePayload
    invisiblePayload := invisiblePayload }

/-- The `extractWatermark` method: recover the bit stream, decode it, and
expand the ultra-compact record (with an empty vault, a missing content hash
becoming `""`).  Any decoding failure — which in the source is an exception
caught by the surrounding `try` — yields `none`. -/
def extractWatermark (text : Str) : Option WatermarkData :=
  match extractFromZeroWidth text with
  | none => none
  | some watermarkBinary =>
      match binaryToData watermarkBinary with
      | none => none
      | some ultraCompactData =>
          some
            { fingerprintHash := ultraCompactData.f
              vault := { vault := [], secret := ultraCompactData.s, polynomial := [] }
              timestamp := ultraCompactData.t
              contentHash := ultraCompactData.c }

end DocumentWatermarker

/-! ## BiometricEncryptionService: verification (biometric.ts, lines 933-974) -/

namespace BiometricEncryptionService

/-- The `verifyDocument` method on an already-read document text.
Fingerprint processing is an asynchronous step that can fail (bad image or
too few minutiae); its outcome is passed in as
`fingerprintMinutiae : Option (List MinutiaePoint)`, `none` representing the
exception path, which the surrounding `try`/`catch` turns into `false`.
The function is total: every failure, including the internal exceptions of
extraction and processing, returns `false`. -/
def verifyDocument (encryptedText : Str)
    (fingerprintMinutiae : Option (List MinutiaePoint)) : Bool :=
  match DocumentWatermarker.extractWatermark encryptedText with
  | none => false
  | some watermarkData =>
      let visibleContent := getUserVisibleText encryptedText
      let currentContentHash := hashContent visibleContent
      if watermarkData.contentHash ≠ [] ∧ currentContentHash ≠ watermarkData.contentHash then
        false
      else
        match fingerprintMinutiae with
        | none => false
        | some minutiae => hashMinutiae minutiae == watermarkData.fingerprintHash

end BiometricEncryptionService

/-! ## FuzzyVaultGenerator (biometric.ts, lines 387-615) -/

namespace FuzzyVaultGenerator

/-- The prime field size, `this.fieldSize = 251`. -/
def fieldSize : Int := 251

/-- The nominal vault size, `this.vaultSize = 5`. -/
def vaultSize : Nat := 5

/-- Value of one hexadecimal digit character (the digit semantics of
JavaScript `parseInt(…, 16)`). -/
def hexVal (c : Char) : Nat :=
  if 97 ≤ c.toNat then c.toNat - 87
  else if 65 ≤ c.toNat then c.toNat - 55
  else c.toNat - 48

/-- The `hexToBytes` method: `parseInt(hex.substr(i, 2), 16)` for every pair
of characters (a trailing odd character parses alone). -/
def hexToBytes : Str → List Nat
  | [] => []
  | [a] => [hexVal a]
  | a :: b :: rest => (16 * hexVal a + hexVal b) :: hexToBytes rest

/-- The `secretToPolynomial` method: each secret byte, reduced mod 251,
becomes a coefficient. -/
def secretToPolynomial (secret : Str) : List Int :=
  (hexToBytes secret).map (fun b => (b : Int).tmod fieldSize)

/-- The `encodeMinutia` method:
`max(1, (x*1000 + y*10 + floor(angle) + (type == 'bifurcation' ? 1 : 0)) % 251)`. -/
def encodeMinutia (m : MinutiaePoint) : Int :=
  max 1 ((m.x * 1000 + m.y * 10 + m.angle +
    (if m.type = .bifurcation then 1 else 0)).tmod fieldSize)

/-- The `evaluatePolynomial` method: Horner-style accumulation of
`result = (result + coeff * power) % 251; power = (power * x) % 251`. -/
def evaluatePolynomial (coefficients : List Int) (x : Int) : Int :=
  (coefficients.foldl
    (fun acc coeff =>
      ((acc.1 + coeff * acc.2).tmod fieldSize, (acc.2 * x).tmod fieldSize))
    ((0 : Int), (1 : Int))).1

/-- The genuine points of `generateVaultPoints`: every minutia contributes
`(encodeMinutia m, P(encodeMinutia m))`. -/
def genuineVaultPoints (minutiae : List MinutiaePoint) (polynomial : List Int) :
    List (Int × Int) :=
  minutiae.map (fun m => (encodeMinutia m, evaluatePolynomial polynomial (encodeMinutia m)))

/-- The `generateVault` method with its three random draws made explicit:
the four secret bytes arrive already hex-encoded as `secret`, the chaff
points as `chaff` (of which exactly `max(0, vaultSize - |minutiae|)` are
used, matching the `chaffCount` loop), and the Fisher-Yates shuffle as the
permutation `shuffle`. -/
def generateVaultWith (secret : Str) (chaff : List (Int × Int))
    (shuffle : List (Int × Int) → List (Int × Int))
    (minutiae : List MinutiaePoint) : FuzzyVault :=
  let polynomial := secretToPolynomial secret
  { vault := shuffle (genuineVaultPoints minutiae polynomial ++
      chaff.take (vaultSize - minutiae.length))
    secret := secret
    polynomial := polynomial }

/-- The `findMatchingPoints` method: for each minutia, the first vault point
whose x-coordinate equals the minutia's encoding (unmatched minutiae are
dropped). -/
def findMatchingPoints (vault : List (Int × Int)) (minutiae : List MinutiaePoint) :
    List (Int × Int) :=
  minutiae.filterMap (fun m => vault.find? (fun point => point.1 == encodeMinutia m))

/-- The extended-Euclid loop of `modInverse`:
`quotient = Math.floor(oldR / r); [oldR, r] = [r, oldR - quotient*r];
[oldS, s] = [s, oldS - quotient*s]`, returning `oldS` when `r` reaches 0.
The recursion is driven by a fuel argument so that it stays structural:
after the first iteration the remainder satisfies `|r'| < |r|` (it is a
floored-division remainder) and then strictly shrinks every iteration, so
the loop always finishes within `|r| + 2` steps and the fuel
`egcdLoop` supplies is never exhausted. -/
def egcdGo : Nat → Int → Int → Int → Int → Int
  | 0, _, _, oldS, _ => oldS
  | fuel + 1, oldR, r, oldS, s =>
      if r = 0 then oldS
      else
        let quotient := Int.fdiv oldR r
        egcdGo fuel r (oldR - quotient * r) s (oldS - quotient * s)

/-- The extended-Euclid loop with its always-sufficient fuel. -/
def egcdLoop (oldR r oldS s : Int) : Int :=
  egcdGo (r.natAbs + 2) oldR r oldS s

/-- The `modInverse` method: extended Euclid, then lift a negative Bezout
coefficient by `m`.  `modInverse 0 251 = 0` — the degenerate input raises no
exception. -/
def modInverse (a m : Int) : Int :=
  let oldS := egcdLoop a m 1 0
  if oldS < 0 then oldS + m else oldS

/-- One `j`-step of the inner loop of `lagrangeInterpolation`: multiply the
accumulated `term` polynomial by `(x - xj) / (xi - xj)` in the source's
index-wise arithmetic (JavaScript `%`, hence `Int.tmod`, which can leave
negative representatives). -/
def lagrangeTermStep (n : Nat) (xi xj : Int) (term : List Int) : List Int :=
  let denominator := modInverse ((xi - xj + fieldSize).tmod fieldSize) fieldSize
  (List.range n).map (fun k =>
    let v := (term.getD k 0 * denominator).tmod fieldSize
    if k = 0 then v
    else (v - term.getD (k - 1) 0 * xj * denominator).tmod fieldSize)

/-- The Lagrange basis term for point `i` of `lagrangeInterpolation`:
start from `[yi, 0, …, 0]` and apply the step for every `j ≠ i`. -/
def lagrangeTerm (n : Nat) (points : List (Int × Int)) (i : Nat) (pt : Int × Int) :
    List Int :=
  points.enum.foldl
    (fun term jp => if jp.1 = i then term else lagrangeTermStep n pt.1 jp.2.1 term)
    (pt.2 :: List.replicate (n - 1) 0)

/-- The `lagrangeInterpolation` method: sum the basis terms index-wise
mod 251 (with JavaScript's signed remainder), over *all* the given points —
the polynomial degree grows with the number of points. -/
def lagrangeInterpolation (points : List (Int × Int)) : List Int :=
  let n := points.length
  points.enum.foldl
    (fun coefficients ip =>
      let term := lagrangeTerm n points ip.1 ip.2
      (List.range n).map (fun k =>
        (coefficients.getD k 0 + term.getD k 0).tmod fieldSize))
    (List.replicate n (0 : Int))

/-- The `polynomialToSecret` method: every reconstructed coefficient is
rendered with `toString(16).padStart(2, '0')` and the renderings are
concatenated. -/
def polynomialToSecret (polynomial : List Int) : Str :=
  (polynomial.map (fun coeff => padStart2 (intHex coeff))).flatten

/-- The `unlockVault` method.  The model is total, mirroring the fact that
no step of the source can throw (`modInverse` returns 0 on the degenerate
zero input instead of raising), so the surrounding `try`/`catch` only ever
returns `null` via the explicit insufficient-points branch. -/
def unlockVault (vault : FuzzyVault) (minutiae : List MinutiaePoint) : Option Str :=
  let matchingPoints := findMatchingPoints vault.vault minutiae
  if matchingPoints.length < vault.polynomial.length then none
  else some (polynomialToSecret (lagrangeInterpolation matchingPoints))

end FuzzyVaultGenerator

/-! ## FingerprintProcessor (biometric.ts, lines 65-381) -/

namespace FingerprintProcessor

/-- The minimum acceptable minutiae count, `this.MIN_MINUTIAE = 12`. -/
def MIN_MINUTIAE : Nat := 12

/-- The cap on kept minutiae, `this.MAX_MINUTIAE = 80`. -/
def MAX_MINUTIAE : Nat := 80

/-- Squared pixel distance between two minutiae.  On the integer
coordinates the source's `Math.hypot(dx, dy) < 5` test is exactly
`dx² + dy² < 25` (both sides are exact, `25` is not a square-root boundary
any integer sum can straddle). -/
def dist2 (a b : MinutiaePoint) : Int :=
  (a.x - b.x) ^ 2 + (a.y - b.y) ^ 2

/-- The loop of `normalizeMinutiae`: keep a candidate only when it is at
least 5 px from every already-kept point; after each iteration stop as soon
as `MAX_MINUTIAE` points are kept. -/
def normalizeMinutiaeGo : List MinutiaePoint → List MinutiaePoint → List MinutiaePoint
  | [], filtered => filtered
  | point :: rest, filtered =>
      let isTooClose := filtered.any (fun existing => dist2 existing point < 25)
      let filtered2 := if isTooClose then filtered else filtered ++ [point]
      if MAX_MINUTIAE ≤ filtered2.length then filtered2
      else normalizeMinutiaeGo rest filtered2

/-- The `normalizeMinutiae` method. -/
def normalizeMinutiae (minutiae : List MinutiaePoint) : List MinutiaePoint :=
  normalizeMinutiaeGo minutiae []

/-- The quality-rejection message of `processFingerprint`, with the detected
count and the required minimum interpolated. -/
def qualityErrorMessage (detected : Nat) : Str :=
  "Fingerprint quality insufficient: detected ".data ++ natDecimal detected ++
  " minutiae; at least ".data ++ natDecimal MIN_MINUTIAE ++ " are required.".data

/-- The acceptance decision of `processFingerprint` (biometric.ts, lines
99-106): the raster pipeline upstream (canvas decoding, preprocessing and
`extractMinutiae`) supplies the raw candidate list; the method then
normalizes it and rejects with the quality error exactly when fewer than
`MIN_MINUTIAE` points remain. -/
def processFingerprint (minutiae : List MinutiaePoint) : Except Str (List MinutiaePoint) :=
  let normalizedMinutiae := normalizeMinutiae minutiae
  if normalizedMinutiae.length < MIN_MINUTIAE then
    Except.error (qualityErrorMessage normalizedMinutiae.length)
  else
    Except.ok normalizedMinutiae

/-- Median of the nine values collected by the filter kernel:
`neighbors.sort((a, b) => a - b)` then `neighbors[Math.floor(9 / 2)]`. -/
def medianOf9 (neighbors : List Nat) : Nat :=
  (List.insertionSort (· ≤ ·) neighbors).getD 4 0

/-- The `applyMedianFilter` method.  The source allocates a zero-filled
`Uint8ClampedArray` and writes only the four channels of each *interior*
pixel (`offset = 1`), each output index being written by exactly one `(x, y)`
iteration; the model therefore defines the output pointwise: channel 3
(alpha) copies the input, channels 0-2 take the 3×3 median of channel 0,
and every index no iteration writes — in particular the whole 1-pixel
border — keeps the allocation value 0. -/
def applyMedianFilter (data : List Nat) (width height : Nat) : List Nat :=
  (List.range data.length).map (fun i =>
    let p := i / 4
    let ch := i % 4
    let x := p % width
    let y := p / width
    if 1 ≤ x ∧ x + 1 < width ∧ 1 ≤ y ∧ y + 1 < height then
      if ch = 3 then data.getD i 0
      else
        let nb := fun (yy xx : Nat) => data.getD ((yy * width + xx) * 4) 0
        medianOf9
          [nb (y - 1) (x - 1), nb (y - 1) x, nb (y - 1) (x + 1),
           nb y (x - 1), nb y x, nb y (x + 1),
           nb (y + 1) (x - 1), nb (y + 1) x, nb (y + 1) (x + 1)]
    else 0)

end FingerprintProcessor

/-! ## Word-processor distributor (docx-handler.ts, lines 135-139) -/

namespace DocxHandler

/-- The `determineSlotCount` function of the DOCX payload distributor:
`min(totalNodes, max(minSlots, min(maxSlots, totalNodes)))` with
`maxSlots = max(1, floor(totalNodes * 0.3))` and
`minSlots = max(1, ceil(payloadLength / 32))`. -/
def determineSlotCount (totalNodes payloadLength : Nat) : Nat :=
  let maxSlots := max 1 (3 * totalNodes / 10)
  let minSlots := max 1 ((payloadLength + 31) / 32)
  min totalNodes (max minSlots (min maxSlots totalNodes))

/-- Modelled from the spec: the slot-count formula
`clamp(1, max(1, ceil(payloadLen/32)), max(1, floor(0.3 * slotCount)))`
— i.e. `max(lo, min(v, hi))` with `lo = 1` — capped at the number of
candidate slots. -/
def specSlotCount (slotCount payloadLength : Nat) : Nat :=
  let lo := 1
  let v := max 1 ((payloadLength + 31) / 32)
  let hi := max 1 (3 * slotCount / 10)
  min slotCount (max lo (min v hi))

end DocxHandler

/-! ## Concrete instances used by individual claims -/

/-- Eleven minutiae spread 10 px apart: all survive normalization. -/
def elevenSpread : List MinutiaePoint :=
  (List.range 11).map (fun k => { x := 10 * (k : Int), y := 0, angle := 0, type := .ending })

/-- Twelve minutiae spread 10 px apart: all survive normalization. -/
def twelveSpread : List MinutiaePoint :=
  (List.range 12).map (fun k => { x := 10 * (k : Int), y := 0, angle := 0, type := .ending })

/-- Twelve minutiae with pairwise-distinct field encodings 1..12. -/
def overlapM12 : List MinutiaePoint :=
  (List.range 12).map (fun k => { x := 0, y := 0, angle := (k : Int) + 1, type := .ending })

/-- The vault generated from `overlapM12` with secret bytes 01 02 03 04;
twelve minutiae exceed the nominal vault size, so no chaff is drawn, and the
shuffle is instantiated with the identity permutation. -/
def overlapVault : FuzzyVault :=
  FuzzyVaultGenerator.generateVaultWith "01020304".data [] id overlapM12

/-- A vault whose polynomial has two coefficients and whose single point
`(5, 7)` is matched twice by `degenerateM2`. -/
def degenerateVault : FuzzyVault :=
  { vault := [(5, 7)], secret := "0102".data, polynomial := [1, 2] }

/-- Two distinct minutiae that both encode to the field element 5. -/
def degenerateM2 : List MinutiaePoint :=
  [{ x := 0, y := 0, angle := 5, type := .ending },
   { x := 0, y := 0, angle := 4, type := .bifurcation }]

/-- Characters whose JSON string serialization is the character itself:
printable ASCII without the quote and the backslash.  The hex hashes, hex
secrets and decimal timestamps the pipeline stores are all of this shape. -/
def safeJsonChar (c : Char) : Bool :=
  0x20 ≤ c.toNat && c.toNat ≤ 0x7e && c ≠ '"' && c ≠ '\\'

/-! ## Helper lemmas: normalization (claims C6, C7) -/

/-- The normalization loop only ever appends to the accumulator, and what it
appends is a sublist of the input. -/
theorem normalizeMinutiaeGo_append_sublist (l : List MinutiaePoint) :
    ∀ acc : List MinutiaePoint,
      ∃ t, FingerprintProcessor.normalizeMinutiaeGo l acc = acc ++ t ∧ t.Sublist l := by
  induction l with
  | nil =>
      intro acc
      exact ⟨[], by simp [FingerprintProcessor.normalizeMinutiaeGo], List.nil_sublist _⟩
  | cons p ps ih =>
      intro acc
      simp only [FingerprintProcessor.normalizeMinutiaeGo]
      split_ifs with h1 h2 h2
      · exact ⟨[], by simp, List.nil_sublist _⟩
      · obtain ⟨t, ht, hsub⟩ := ih acc
        exact ⟨t, ht, hsub.cons p⟩
      · exact ⟨[p], rfl, (List.nil_sublist ps).cons₂ p⟩
      · obtain ⟨t, ht, hsub⟩ := ih (acc ++ [p])
        exact ⟨p :: t, by simp [ht], hsub.cons₂ p⟩

/-- The normalization loop never grows the accumulator beyond
`MAX_MINUTIAE` when it starts strictly below it. -/
theorem normalizeMinutiaeGo_length (l : List MinutiaePoint) :
    ∀ acc : List MinutiaePoint,
      acc.length < FingerprintProcessor.MAX_MINUTIAE →
      (FingerprintProcessor.normalizeMinutiaeGo l acc).length ≤
        FingerprintProcessor.MAX_MINUTIAE := by
  induction l with
  | nil =>
      intro acc hacc
      simpa [FingerprintProcessor.normalizeMinutiaeGo] using Nat.le_of_lt hacc
  | cons p ps ih =>
      intro acc hacc
      simp only [FingerprintProcessor.normalizeMinutiaeGo]
      split_ifs with h1 h2 h2
      · exact Nat.le_of_lt hacc
      · exact ih acc hacc
      · simp
        simp at h2
        omega
      · exact ih (acc ++ [p]) (by simp at h2 ⊢; omega)

/-- The normalization loop preserves the pairwise 5-px separation of the
accumulator: a point is appended only after the `some`-test certifies it is
far from every kept point. -/
theorem normalizeMinutiaeGo_pairwise (l : List MinutiaePoint) :
    ∀ acc : List MinutiaePoint,
      acc.Pairwise (fun a b => 25 ≤ FingerprintProcessor.dist2 a b) →
      (FingerprintProcessor.normalizeMinutiaeGo l acc).Pairwise
        (fun a b => 25 ≤ FingerprintProcessor.dist2 a b) := by
  induction l with
  | nil =>
      intro acc hacc
      simpa [FingerprintProcessor.normalizeMinutiaeGo] using hacc
  | cons p ps ih =>
      intro acc hacc
      have key : ¬ (acc.any (fun existing => FingerprintProcessor.dist2 existing p < 25)) = true →
          (acc ++ [p]).Pairwise (fun a b => 25 ≤ FingerprintProcessor.dist2 a b) := by
        intro hclose
        have hfar : ∀ a ∈ acc, 25 ≤ FingerprintProcessor.dist2 a p := by
          intro a ha
          have h1 := (List.any_eq_true).not.mp hclose
          push_neg at h1
          have h2 := h1 a ha
          simpa using h2
        rw [List.pairwise_append]
        refine ⟨hacc, List.pairwise_singleton _ _, fun a ha b hb => ?_⟩
        simp only [List.mem_singleton] at hb
        subst hb
        exact hfar a ha
      simp only [FingerprintProcessor.normalizeMinutiaeGo]
      split_ifs with h1 h2 h2
      · exact hacc
      · exact ih acc hacc
      · exact key h1
      · exact ih (acc ++ [p]) (key h1)

/-! ## Claim C6 -/

/-- C6: `processFingerprint` rejects exactly when fewer than 12 minutiae
remain after normalization (the boundary is inclusive at 12: the
eleven-point sample is rejected and the twelve-point sample accepted), and
the rejection message interpolates both the detected count and the required
minimum of 12. -/
theorem C6_processFingerprint_quality_gate :
    (∀ minutiae : List MinutiaePoint,
        FingerprintProcessor.processFingerprint minutiae =
          if (FingerprintProcessor.normalizeMinutiae minutiae).length <
              FingerprintProcessor.MIN_MINUTIAE then
            Except.error (FingerprintProcessor.qualityErrorMessage
              (FingerprintProcessor.normalizeMinutiae minutiae).length)
          else Except.ok (FingerprintProcessor.normalizeMinutiae minutiae)) ∧
    (∀ detected : Nat,
        FingerprintProcessor.qualityErrorMessage detected =
          "Fingerprint quality insufficient: detected ".data ++ natDecimal detected ++
          " minutiae; at least ".data ++ natDecimal 12 ++ " are required.".data) ∧
    FingerprintProcessor.processFingerprint elevenSpread =
      Except.error (FingerprintProcessor.qualityErrorMessage 11) ∧
    FingerprintProcessor.processFingerprint twelveSpread = Except.ok twelveSpread :=
  ⟨fun _ => rfl, fun _ => rfl, rfl, rfl⟩

/-! ## Claim C7 -/

/-- C7: every normalized minutiae list is a greedy in-scan-order selection
(a sublist of the candidate list), contains at most 80 points, and its kept
points are pairwise at squared distance at least 25 — i.e. at Euclidean
distance at least 5 px. -/
theorem C7_normalizeMinutiae_invariant :
    ∀ minutiae : List MinutiaePoint,
      (FingerprintProcessor.normalizeMinutiae minutiae).Sublist minutiae ∧
      (FingerprintProcessor.normalizeMinutiae minutiae).length ≤ 80 ∧
      (FingerprintProcessor.normalizeMinutiae minutiae).Pairwise
        (fun a b => 25 ≤ FingerprintProcessor.dist2 a b) := by
  intro minutiae
  refine ⟨?_, ?_, ?_⟩
  · obtain ⟨t, ht, hsub⟩ := normalizeMinutiaeGo_append_sublist minutiae []
    simpa [FingerprintProcessor.normalizeMinutiae, ht] using hsub
  · exact normalizeMinutiaeGo_length minutiae [] (by simp [FingerprintProcessor.MAX_MINUTIAE])
  · exact normalizeMinutiaeGo_pairwise minutiae [] List.Pairwise.nil

/-! ## Claim C2 -/

/-- C2: evaluation of `unlockVault` at the failing input — the vault built
from the twelve-minutiae set `overlapM12` with secret `01020304` and full
overlap.  Instead of the stored 8-character secret the code returns the
26-character hex rendering of twelve interpolated coefficients (every
matched point contributes one), including negative representatives left by
the JavaScript `%` operator. -/
theorem C2_unlockVault_full_overlap_wrong_secret :
    FuzzyVaultGenerator.unlockVault overlapVault overlapM12 =
      some "000000000000000004-f802-fa".data ∧
    FuzzyVaultGenerator.unlockVault overlapVault overlapM12 ≠
      some overlapVault.secret := by
  constructor
  · decide
  · decide

/-! ## Claim C3 -/

/-- C3 counterexample: `degenerateM2` matches the single vault point of
`degenerateVault` twice, so the matched multiset has a duplicate x value
(and is not below the two-coefficient threshold), yet `unlockVault` does
not return `null`: `modInverse 0 251 = 0` silently degrades the Lagrange
arithmetic and a (wrong) secret string is produced. -/
theorem C3_counterexample_duplicate_x_not_null :
    (FuzzyVaultGenerator.findMatchingPoints degenerateVault.vault degenerateM2).length =
      degenerateVault.polynomial.length ∧
    ¬ ((FuzzyVaultGenerator.findMatchingPoints degenerateVault.vault degenerateM2).map
        Prod.fst).Nodup ∧
    FuzzyVaultGenerator.unlockVault degenerateVault degenerateM2 ≠ none := by
  refine ⟨by decide, by decide, by decide⟩

/-- C3 (amended): whenever the matched vault points number fewer than the
polynomial coefficient count, `unlockVault` returns `null` — and the model
is total, so no exception can escape.  (The degenerate duplicate-x case, by
contrast, is *not* rejected: see the counterexample.) -/
theorem C3_amended_unlock_insufficient :
    ∀ (vault : FuzzyVault) (minutiae : List MinutiaePoint),
      (FuzzyVaultGenerator.findMatchingPoints vault.vault minutiae).length <
        vault.polynomial.length →
      FuzzyVaultGenerator.unlockVault vault minutiae = none := by
  intro vault minutiae h
  simp [FuzzyVaultGenerator.unlockVault, h]

/-- C3 witness: a vault with a one-coefficient polynomial and no matching
points is rejected. -/
theorem C3_amended_unlock_insufficient_witness :
    (FuzzyVaultGenerator.findMatchingPoints (FuzzyVault.mk [] "00".data [0]).vault []).length <
      (FuzzyVault.mk [] "00".data [0]).polynomial.length ∧
    FuzzyVaultGenerator.unlockVault (FuzzyVault.mk [] "00".data [0]) [] = none :=
  ⟨by decide, C3_amended_unlock_insufficient (FuzzyVault.mk [] "00".data [0]) [] (by decide)⟩

/-! ## Claim C9 -/

/-- C9 counterexample: for 10 candidate slots and a 200-character payload
the DOCX distributor selects 7 slots while the plain-text distributor (and
the spec's clamp formula) selects 3. -/
theorem C9_counterexample_slot_counts_differ :
    DocxHandler.determineSlotCount 10 200 = 7 ∧
    DocumentWatermarker.textSlotCount 10 200 = 3 ∧
    DocxHandler.specSlotCount 10 200 = 3 ∧
    DocxHandler.determineSlotCount 10 200 ≠ DocumentWatermarker.textSlotCount 10 200 := by
  refine ⟨by decide, by decide, by decide, by decide⟩

/-- C9 (amended): the plain-text distributor matches the spec's clamp
formula exactly, but the DOCX distributor computes
`min(totalNodes, max(minSlots, maxSlots))` — the *maximum* of the two slot
bounds instead of the clamped minimum — so the two agree only when the
payload-driven bound does not exceed the 30 % cap. -/
theorem C9_amended_slot_count_formulas :
    ∀ totalNodes payloadLength : Nat,
      1 ≤ totalNodes →
      DocumentWatermarker.textSlotCount totalNodes payloadLength =
        DocxHandler.specSlotCount totalNodes payloadLength ∧
      DocxHandler.determineSlotCount totalNodes payloadLength =
        min totalNodes
          (max (max 1 ((payloadLength + 31) / 32)) (max 1 (3 * totalNodes / 10))) := by
  intro totalNodes payloadLength h
  simp only [DocumentWatermarker.textSlotCount, DocxHandler.specSlotCount,
    DocxHandler.determineSlotCount]
  constructor
  · omega
  · omega

/-- C9 witness at the counterexample sizes. -/
theorem C9_amended_slot_count_formulas_witness :
    (1 : Nat) ≤ 10 ∧
    DocumentWatermarker.textSlotCount 10 200 = DocxHandler.specSlotCount 10 200 ∧
    DocxHandler.determineSlotCount 10 200 =
      min 10 (max (max 1 ((200 + 31) / 32)) (max 1 (3 * 10 / 10))) :=
  ⟨by decide, C9_amended_slot_count_formulas 10 200 (by decide)⟩

/-! ## Claim C8 -/

/-- C8 counterexample: on a 3×3 image whose pixels all hold 7, the median
filter's output at border index 0 is 0, not the input value 7 — border
pixels are overwritten with the fresh buffer's zeros, not left untouched. -/
theorem C8_counterexample_border_not_copied :
    (FingerprintProcessor.applyMedianFilter (List.replicate 36 7) 3 3).getD 0 0 ≠
      (List.replicate 36 7 : List Nat).getD 0 0 := by
  decide

/-- C8 (amended): the median filter writes only interior pixels, and the
output buffer starts zero-filled, so every channel of every border pixel
(first or last row or column) of the output is 0 — not a copy of the
input. -/
theorem C8_amended_median_border_zero :
    ∀ (data : List Nat) (width height i : Nat),
      i < data.length →
      (i / 4 % width = 0 ∨ i / 4 / width = 0 ∨
        i / 4 % width + 1 = width ∨ i / 4 / width + 1 = height) →
      (FingerprintProcessor.applyMedianFilter data width height).getD i 0 = 0 := by
  intro data width height i hi hborder
  have hcond : ¬ (1 ≤ i / 4 % width ∧ i / 4 % width + 1 < width ∧
      1 ≤ i / 4 / width ∧ i / 4 / width + 1 < height) := by
    rcases hborder with h | h | h | h <;> omega
  simp only [FingerprintProcessor.applyMedianFilter]
  rw [List.getD_eq_getElem?_getD, List.getElem?_map, List.getElem?_range hi]
  simp [hcond]

/-- C8 witness: channel 0 of the top-left pixel of the all-7 3×3 image. -/
theorem C8_amended_median_border_zero_witness :
    (0 : Nat) < (List.replicate 36 7 : List Nat).length ∧
    (0 / 4 % 3 = 0 ∨ 0 / 4 / 3 = 0 ∨ 0 / 4 % 3 + 1 = 3 ∨ 0 / 4 / 3 + 1 = 3) ∧
    (FingerprintProcessor.applyMedianFilter (List.replicate 36 7) 3 3).getD 0 0 = 0 :=
  ⟨by decide, Or.inl (by decide),
    C8_amended_median_border_zero (List.replicate 36 7) 3 3 0 (by decide)
      (Or.inl (by decide))⟩

/-! ## Helper lemmas: the invisible alphabet (claims C10, C4, C5) -/

/-- Every character `binaryToInvisibleTextGo` emits is one of the three
markers. -/
theorem binaryToInvisibleTextGo_markers (bits : Str) :
    ∀ (i : Nat) (c : Char),
      c ∈ DocumentWatermarker.binaryToInvisibleTextGo bits i → isMarkerChar c = true := by
  induction bits with
  | nil => intro i c hc; simp [DocumentWatermarker.binaryToInvisibleTextGo] at hc
  | cons b rest ih =>
      intro i c hc
      cases rest with
      | nil =>
          simp only [DocumentWatermarker.binaryToInvisibleTextGo, List.mem_singleton] at hc
          subst hc
          by_cases hb : b == '1' <;> simp [hb, isMarkerChar, ONE_BIT, ZERO_BIT]
      | cons b2 rest2 =>
          simp only [DocumentWatermarker.binaryToInvisibleTextGo] at hc
          rcases List.mem_cons.mp hc with hc1 | hc2
          · subst hc1
            by_cases hb : b == '1' <;> simp [hb, isMarkerChar, ONE_BIT, ZERO_BIT]
          · by_cases hsep : (i + 1) % 8 == 0
            · simp only [hsep, if_true] at hc2
              rcases List.mem_cons.mp hc2 with hc3 | hc4
              · subst hc3; simp [isMarkerChar, SEPARATOR]
              · exact ih (i + 1) c hc4
            · simp only [hsep, if_false] at hc2
              exact ih (i + 1) c hc2

/-! ## Claim C10 -/

/-- C10: the invisible payload produced by `embedWatermark` consists
exclusively of the three zero-width characters U+200B (bit 0), U+200C
(bit 1) and U+200D (delimiter) — for every record, every document text and
every random stream. -/
theorem C10_invisiblePayload_markers_only :
    ∀ (rng : Nat → Nat) (text : Str) (watermarkData : WatermarkData),
      ∀ c ∈ (DocumentWatermarker.embedWatermark rng text watermarkData).invisiblePayload,
        c = ZERO_BIT ∨ c = ONE_BIT ∨ c = SEPARATOR := by
  intro rng text watermarkData c hc
  have hm : isMarkerChar c = true := by
    apply binaryToInvisibleTextGo_markers _ 0 c
    simpa [DocumentWatermarker.embedWatermark,
      DocumentWatermarker.binaryToInvisibleText] using hc
  have h2 : (c = ZERO_BIT ∨ c = ONE_BIT) ∨ c = SEPARATOR := by
    simpa [isMarkerChar] using hm
  tauto

/-- Witness for C10: the zero-width space itself occurs in the invisible
payload of a concrete embedding (the first serialized bit of `'\x7b'` is 0),
and the theorem classifies it among the three markers. -/
theorem C10_invisiblePayload_markers_only_witness :
    ZERO_BIT ∈ (DocumentWatermarker.embedWatermark (fun _ => 0) "ab".data
      { fingerprintHash := "a".data,
        vault := { vault := [], secret := "b".data, polynomial := [] },
        timestamp := 0, contentHash := [] }).invisiblePayload ∧
    (ZERO_BIT = ZERO_BIT ∨ ZERO_BIT = ONE_BIT ∨ ZERO_BIT = SEPARATOR) :=
  ⟨by decide,
    C10_invisiblePayload_markers_only (fun _ => 0) "ab".data
      { fingerprintHash := "a".data,
        vault := { vault := [], secret := "b".data, polynomial := [] },
        timestamp := 0, contentHash := [] }
      ZERO_BIT (by decide)⟩

/-! ## Claim C1 -/

/-- C1: `verifyDocument` returns `true` exactly when a watermark record
decodes from the artifact's text, the stored content hash is empty or equals
the rolling hash of the marker-stripped visible text, and the supplied
fingerprint yields minutiae whose hash equals the stored identity hash.  In
every other case — no watermark, integrity mismatch, fingerprint processing
failure (`fingerprintMinutiae = none`, the modelled exception path) or
identity mismatch — it returns `false`; the function is total, so it never
throws. -/
theorem C1_verifyDocument_iff :
    ∀ (encryptedText : Str) (fingerprintMinutiae : Option (List MinutiaePoint)),
      BiometricEncryptionService.verifyDocument encryptedText fingerprintMinutiae = true ↔
      ∃ watermarkData,
        DocumentWatermarker.extractWatermark encryptedText = some watermarkData ∧
        (watermarkData.contentHash = [] ∨
          BiometricEncryptionService.hashContent
            (BiometricEncryptionService.getUserVisibleText encryptedText) =
            watermarkData.contentHash) ∧
        ∃ minutiae,
          fingerprintMinutiae = some minutiae ∧
          BiometricEncryptionService.hashMinutiae minutiae =
            watermarkData.fingerprintHash := by
  intro encryptedText fingerprintMinutiae
  unfold BiometricEncryptionService.verifyDocument
  cases hw : DocumentWatermarker.extractWatermark encryptedText with
  | none => simp
  | some wd =>
      dsimp only
      by_cases hcc : wd.contentHash ≠ [] ∧
          BiometricEncryptionService.hashContent
            (BiometricEncryptionService.getUserVisibleText encryptedText) ≠ wd.contentHash
      · rw [if_pos hcc]
        constructor
        · intro h; simp at h
        · rintro ⟨wd', hw', hdisj, -⟩
          injection hw' with he
          subst he
          rcases hdisj with h1 | h2
          · exact absurd h1 hcc.1
          · exact absurd h2 hcc.2
      · rw [if_neg hcc]
        have hdisj : wd.contentHash = [] ∨
            BiometricEncryptionService.hashContent
              (BiometricEncryptionService.getUserVisibleText encryptedText) =
              wd.contentHash := by
          push_neg at hcc
          by_cases he : wd.contentHash = []
          · exact Or.inl he
          · exact Or.inr (hcc he)
        cases fingerprintMinutiae with
        | none =>
            constructor
            · intro h; simp at h
            · rintro ⟨wd', -, -, m', hm', -⟩
              exact absurd hm' (by simp)
        | some minutiae =>
            constructor
            · intro h
              simp only [beq_iff_eq] at h
              exact ⟨wd, rfl, hdisj, minutiae, rfl, h⟩
            · rintro ⟨wd', hw', -, m', hm', hhash⟩
              injection hw' with he
              subst he
              injection hm' with he2
              subst he2
              simpa [beq_iff_eq] using hhash


/-! ## Helper lemmas: tokenization and stripping (claims C4, C5) -/

/-- The homogeneous runs concatenate back to the original string. -/
theorem wsRuns_flatten (s : Str) : (DocumentWatermarker.wsRuns s).flatten = s := by
  induction s with
  | nil => rfl
  | cons c cs ih =>
      simp only [DocumentWatermarker.wsRuns]
      cases hr : DocumentWatermarker.wsRuns cs with
      | nil => simp_all
      | cons r rs =>
          cases r with
          | nil => simp_all
          | cons d dr =>
              by_cases h : isJsWhitespace c == isJsWhitespace d <;> simp_all

/-- The split tokens concatenate back to the original string (the boundary
empties contribute nothing). -/
theorem jsSplitWs_flatten (s : Str) : (DocumentWatermarker.jsSplitWs s).flatten = s := by
  have h := wsRuns_flatten s
  unfold DocumentWatermarker.jsSplitWs
  cases hr : DocumentWatermarker.wsRuns s with
  | nil =>
      rw [hr] at h
      simpa using h
  | cons r rs =>
      rw [hr] at h
      by_cases h1 : DocumentWatermarker.headRunIsWs (r :: rs)
      · simp only [h1, if_true]
        by_cases h2 : DocumentWatermarker.lastRunIsWs ([] :: r :: rs)
        · simp only [h2, if_true]
          simpa [List.flatten_append] using h
        · simp only [h2, if_false]
          simpa using h
      · simp only [h1, if_false]
        by_cases h2 : DocumentWatermarker.lastRunIsWs (r :: rs)
        · simpa [h2, List.flatten_append] using h
        · simpa [h2] using h

/-- Stripping distributes over concatenation. -/
theorem strip_append (a b : Str) :
    BiometricEncryptionService.getUserVisibleText (a ++ b) =
      BiometricEncryptionService.getUserVisibleText a ++
      BiometricEncryptionService.getUserVisibleText b := by
  simp [BiometricEncryptionService.getUserVisibleText]

/-- Stripping the markers from marker-free text is the identity. -/
theorem strip_of_no_markers {s : Str} (h : ∀ c ∈ s, isMarkerChar c = false) :
    BiometricEncryptionService.getUserVisibleText s = s :=
  List.filter_eq_self.mpr (fun a ha => by simp [h a ha])

/-- Stripping the markers from an all-marker string leaves nothing. -/
theorem strip_of_all_markers {s : Str} (h : ∀ c ∈ s, isMarkerChar c = true) :
    BiometricEncryptionService.getUserVisibleText s = [] :=
  List.filter_eq_nil_iff.mpr (fun a ha => by simp [h a ha])

/-- Appending an all-marker chunk to any single token does not change the
stripped flattening. -/
theorem strip_flatten_set (tokens : List Str) (s : Nat) (chunk : Str)
    (hch : ∀ c ∈ chunk, isMarkerChar c = true) :
    BiometricEncryptionService.getUserVisibleText
        ((tokens.set s (tokens.getD s [] ++ chunk)).flatten) =
      BiometricEncryptionService.getUserVisibleText tokens.flatten := by
  by_cases hs : s < tokens.length
  · have hset : tokens.set s (tokens.getD s [] ++ chunk) =
        tokens.take s ++ (tokens.getD s [] ++ chunk) :: tokens.drop (s + 1) := by
      rw [List.set_eq_take_append_cons_drop]
      simp [hs]
    have hdec : tokens = tokens.take s ++ tokens.getD s [] :: tokens.drop (s + 1) := by
      conv_lhs => rw [← List.take_append_drop s tokens]
      rw [List.drop_eq_getElem_cons hs, List.getD_eq_getElem tokens [] hs]
    rw [hset]
    conv_rhs => rw [hdec]
    simp only [List.flatten_append, List.flatten_cons, strip_append,
      strip_of_all_markers hch]
    simp
  · rw [List.set_eq_of_length_le (by omega)]

/-- The chunk-appending loop does not change the stripped flattening, and
its leftover payload is still all markers. -/
theorem appendChunks_strip (slots : List Nat) :
    ∀ (tokens : List Str) (payload : Str) (chunkSize : Nat),
      (∀ c ∈ payload, isMarkerChar c = true) →
      BiometricEncryptionService.getUserVisibleText
          ((DocumentWatermarker.appendChunks tokens slots payload chunkSize).1.flatten) =
        BiometricEncryptionService.getUserVisibleText tokens.flatten ∧
      (∀ c ∈ (DocumentWatermarker.appendChunks tokens slots payload chunkSize).2,
        isMarkerChar c = true) := by
  induction slots with
  | nil =>
      intro tokens payload chunkSize hp
      exact ⟨rfl, hp⟩
  | cons slot rest ih =>
      intro tokens payload chunkSize hp
      simp only [DocumentWatermarker.appendChunks]
      by_cases he : payload.isEmpty
      · simp only [he, if_true]
        exact ⟨by trivial, hp⟩
      · simp only [he, if_false]
        have htake : ∀ c ∈ payload.take chunkSize, isMarkerChar c = true :=
          fun c hc => hp c (List.take_subset _ _ hc)
        have hdrop : ∀ c ∈ payload.drop chunkSize, isMarkerChar c = true :=
          fun c hc => hp c (List.drop_subset _ _ hc)
        obtain ⟨h1, h2⟩ := ih (tokens.set slot (tokens.getD slot [] ++ payload.take chunkSize))
          (payload.drop chunkSize) chunkSize hdrop
        exact ⟨h1.trans (strip_flatten_set tokens slot (payload.take chunkSize) htake), h2⟩

/-- The slot-distribution phase does not change the stripped flattening. -/
theorem distributeWithSlots_strip (tokens : List Str) (selectedSlots : List Nat)
    (payload : Str) (chunkSize : Nat)
    (hp : ∀ c ∈ payload, isMarkerChar c = true) :
    BiometricEncryptionService.getUserVisibleText
        (DocumentWatermarker.distributeWithSlots tokens selectedSlots payload chunkSize) =
      BiometricEncryptionService.getUserVisibleText tokens.flatten := by
  unfold DocumentWatermarker.distributeWithSlots
  obtain ⟨hmain, hrest⟩ := appendChunks_strip selectedSlots tokens payload chunkSize hp
  dsimp only
  by_cases h4 : (DocumentWatermarker.appendChunks tokens selectedSlots payload chunkSize).2.isEmpty
  · simp only [h4, if_true]
    exact hmain
  · simp only [h4, if_false]
    cases selectedSlots.getLast? with
    | none => exact hmain
    | some lastSlot =>
        exact (strip_flatten_set _ lastSlot _ hrest).trans hmain

/-- Distribution is invisible: for marker-free text and an all-marker
payload, stripping the markers from the distributed result recovers the
text exactly, whatever the random stream chooses. -/
theorem distribute_strip (rng : Nat → Nat) (text payload : Str)
    (htext : ∀ c ∈ text, isMarkerChar c = false)
    (hp : ∀ c ∈ payload, isMarkerChar c = true) :
    BiometricEncryptionService.getUserVisibleText
        (DocumentWatermarker.distributeInvisiblePayload rng text payload) = text := by
  unfold DocumentWatermarker.distributeInvisiblePayload
  split_ifs with d1
  · exact strip_of_no_markers htext
  · dsimp only
    split_ifs with d2 d3
    · rw [strip_append, strip_of_no_markers htext, strip_of_all_markers hp]
      rfl
    · rw [strip_append, strip_of_no_markers htext, strip_of_all_markers hp]
      rfl
    · rw [distributeWithSlots_strip _ _ _ _ hp, jsSplitWs_flatten]
      exact strip_of_no_markers htext

/-! ## Claim C5 -/

/-- C5 counterexample: for the non-empty one-word text `"ab"` and the
payload `"X"` (a perfectly ordinary payload, which the claim quantifies
over), the distributor appends the visible character `X` to the single
word and stripping the three markers does not remove it, so the identity
`strip (distribute text payload) = text` fails. -/
theorem C5_counterexample_visible_payload :
    BiometricEncryptionService.getUserVisibleText
        (DocumentWatermarker.distributeInvisiblePayload (fun _ => 0) "ab".data "X".data) =
      "abX".data ∧
    BiometricEncryptionService.getUserVisibleText
        (DocumentWatermarker.distributeInvisiblePayload (fun _ => 0) "ab".data "X".data) ≠
      "ab".data := by
  refine ⟨by decide, by decide⟩

/-- C5 (amended): for every non-empty text that contains at least one
non-whitespace token and *no zero-width marker characters*, and every
payload consisting *only of the three marker characters* — which is the
only kind of payload the watermarker ever distributes — stripping the
markers from the distributed result yields exactly the original text,
whatever the random slot choice. -/
theorem C5_amended_strip_distribute :
    ∀ (rng : Nat → Nat) (text payload : Str),
      text ≠ [] →
      (∃ c ∈ text, isJsWhitespace c = false) →
      (∀ c ∈ text, isMarkerChar c = false) →
      (∀ c ∈ payload, isMarkerChar c = true) →
      BiometricEncryptionService.getUserVisibleText
        (DocumentWatermarker.distributeInvisiblePayload rng text payload) = text := by
  intro rng text payload _hne _hword htext hp
  exact distribute_strip rng text payload htext hp

/-- C5 witness: one marker character distributed through `"ab"`. -/
theorem C5_amended_strip_distribute_witness :
    "ab".data ≠ ([] : Str) ∧
    (∃ c ∈ "ab".data, isJsWhitespace c = false) ∧
    (∀ c ∈ "ab".data, isMarkerChar c = false) ∧
    (∀ c ∈ [ZERO_BIT], isMarkerChar c = true) ∧
    BiometricEncryptionService.getUserVisibleText
      (DocumentWatermarker.distributeInvisiblePayload (fun _ => 0) "ab".data [ZERO_BIT]) =
      "ab".data :=
  ⟨by decide, by decide, by decide, by decide,
    C5_amended_strip_distribute (fun _ => 0) "ab".data [ZERO_BIT] (by decide) (by decide)
      (by decide) (by decide)⟩

/-! ## Helper lemmas: marker order through distribution (claim C4) -/

/-- Appending a chunk to token `s` appends the chunk's markers after all the
existing ones, provided no markers occur in the tokens after position `s`. -/
theorem markers_flatten_set (tokens : List Str) (s : Nat) (chunk : Str)
    (hs : s < tokens.length)
    (hafter : ((tokens.drop (s + 1)).flatten.filter isMarkerChar) = []) :
    ((tokens.set s (tokens.getD s [] ++ chunk)).flatten.filter isMarkerChar) =
      tokens.flatten.filter isMarkerChar ++ chunk.filter isMarkerChar := by
  have hset : tokens.set s (tokens.getD s [] ++ chunk) =
      tokens.take s ++ (tokens.getD s [] ++ chunk) :: tokens.drop (s + 1) := by
    rw [List.set_eq_take_append_cons_drop]
    simp [hs]
  have hdec : tokens = tokens.take s ++ tokens.getD s [] :: tokens.drop (s + 1) := by
    conv_lhs => rw [← List.take_append_drop s tokens]
    rw [List.drop_eq_getElem_cons hs, List.getD_eq_getElem tokens [] hs]
  rw [hset]
  conv_rhs => rw [hdec]
  simp only [List.flatten_append, List.flatten_cons, List.filter_append, hafter]
  simp

/-- The chunk-appending loop leaves the token list length unchanged. -/
theorem appendChunks_length (slots : List Nat) :
    ∀ (tokens : List Str) (payload : Str) (chunkSize : Nat),
      (DocumentWatermarker.appendChunks tokens slots payload chunkSize).1.length =
        tokens.length := by
  induction slots with
  | nil => intro tokens payload chunkSize; rfl
  | cons slot rest ih =>
      intro tokens payload chunkSize
      simp only [DocumentWatermarker.appendChunks]
      by_cases he : payload.isEmpty
      · simp [he]
      · rw [if_neg he]
        rw [ih]
        exact List.length_set tokens slot _

/-- The chunk-appending loop does not touch tokens at or beyond an index
larger than every slot. -/
theorem appendChunks_drop (slots : List Nat) :
    ∀ (tokens : List Str) (payload : Str) (chunkSize n : Nat),
      (∀ i ∈ slots, i < n) →
      (DocumentWatermarker.appendChunks tokens slots payload chunkSize).1.drop n =
        tokens.drop n := by
  induction slots with
  | nil => intro tokens payload chunkSize n _; rfl
  | cons slot rest ih =>
      intro tokens payload chunkSize n hlt
      simp only [DocumentWatermarker.appendChunks]
      by_cases he : payload.isEmpty
      · simp [he]
      · rw [if_neg he]
        rw [ih _ _ _ _ (fun i hi => hlt i (List.mem_cons_of_mem _ hi))]
        rw [List.drop_set]
        rw [if_pos (hlt slot (List.mem_cons_self _ _))]

/-- The leftover payload of the chunk-appending loop is a suffix of the
payload (some iterated drop). -/
theorem appendChunks_snd_suffix (slots : List Nat) :
    ∀ (tokens : List Str) (payload : Str) (chunkSize : Nat),
      ∃ k, (DocumentWatermarker.appendChunks tokens slots payload chunkSize).2 =
        payload.drop k := by
  induction slots with
  | nil => intro tokens payload chunkSize; exact ⟨0, rfl⟩
  | cons slot rest ih =>
      intro tokens payload chunkSize
      simp only [DocumentWatermarker.appendChunks]
      by_cases he : payload.isEmpty
      · exact ⟨0, by simp [he]⟩
      · rw [if_neg he]
        obtain ⟨k, hk⟩ := ih (tokens.set slot (tokens.getD slot [] ++ payload.take chunkSize))
          (payload.drop chunkSize) chunkSize
        exact ⟨chunkSize + k, by rw [hk, List.drop_drop, Nat.add_comm]⟩

/-- Through the chunk-appending loop over strictly increasing valid slots of
marker-free tokens, the markers of the result followed by the leftover are
exactly the payload. -/
theorem appendChunks_markers (slots : List Nat) :
    ∀ (tokens : List Str) (payload : Str) (chunkSize : Nat),
      slots.Pairwise (· < ·) →
      (∀ i ∈ slots, i < tokens.length) →
      (∀ i ∈ slots, ((tokens.drop i).flatten.filter isMarkerChar) = []) →
      (∀ c ∈ payload, isMarkerChar c = true) →
      ((DocumentWatermarker.appendChunks tokens slots payload chunkSize).1.flatten.filter
          isMarkerChar) ++
        (DocumentWatermarker.appendChunks tokens slots payload chunkSize).2 =
      tokens.flatten.filter isMarkerChar ++ payload := by
  induction slots with
  | nil => intro tokens payload chunkSize _ _ _ _; rfl
  | cons slot rest ih =>
      intro tokens payload chunkSize hsorted hvalid hclean hp
      simp only [DocumentWatermarker.appendChunks]
      by_cases he : payload.isEmpty
      · have : payload = [] := List.isEmpty_iff.mp he
        subst this
        simp [he]
      · rw [if_neg he]
        have hslot : slot < tokens.length := hvalid slot (List.mem_cons_self _ _)
        have hcleanslot := hclean slot (List.mem_cons_self _ _)
        have hafter : ((tokens.drop (slot + 1)).flatten.filter isMarkerChar) = [] := by
          rw [List.drop_eq_getElem_cons hslot] at hcleanslot
          simp only [List.flatten_cons, List.filter_append] at hcleanslot
          exact (List.append_eq_nil.mp hcleanslot).2
        have hcleanself : (tokens.getD slot []).filter isMarkerChar = [] := by
          rw [List.drop_eq_getElem_cons hslot] at hcleanslot
          simp only [List.flatten_cons, List.filter_append] at hcleanslot
          rw [List.getD_eq_getElem tokens [] hslot]
          exact (List.append_eq_nil.mp hcleanslot).1
        have htake : ∀ c ∈ payload.take chunkSize, isMarkerChar c = true :=
          fun c hc => hp c (List.take_subset _ _ hc)
        have hdrop : ∀ c ∈ payload.drop chunkSize, isMarkerChar c = true :=
          fun c hc => hp c (List.drop_subset _ _ hc)
        set tokens2 := tokens.set slot (tokens.getD slot [] ++ payload.take chunkSize) with ht2
        have hrec := ih tokens2 (payload.drop chunkSize) chunkSize
          (List.Pairwise.sublist (List.sublist_cons_self _ _) hsorted)
          (fun i hi => by
            rw [ht2, List.length_set]
            exact hvalid i (List.mem_cons_of_mem _ hi))
          (fun i hi => by
            have hgt : slot < i := (List.pairwise_cons.mp hsorted).1 i hi
            rw [ht2, List.drop_set, if_pos hgt]
            exact hclean i (List.mem_cons_of_mem _ hi))
          hdrop
        rw [hrec]
        have hstep : tokens2.flatten.filter isMarkerChar =
            tokens.flatten.filter isMarkerChar ++ payload.take chunkSize := by
          rw [ht2, markers_flatten_set tokens slot (payload.take chunkSize) hslot hafter,
            List.filter_eq_self.mpr htake]
        rw [hstep, List.append_assoc, List.take_append_drop]

/-- In a strictly increasing list every element is at most the last one. -/
theorem pairwise_lt_le_getLast (l : List Nat) :
    ∀ m : Nat, l.Pairwise (· < ·) → l.getLast? = some m → ∀ x ∈ l, x ≤ m := by
  induction l with
  | nil => intro m _ hm; simp at hm
  | cons a t ih =>
      intro m hp hm x hx
      cases t with
      | nil =>
          simp at hm hx
          omega
      | cons b u =>
          have hm2 : (b :: u).getLast? = some m := by
            rw [List.getLast?_cons_cons] at hm
            exact hm
          have hpt : (b :: u).Pairwise (· < ·) := (List.pairwise_cons.mp hp).2
          rcases List.mem_cons.mp hx with hxa | hxt
          · subst hxa
            have hmm : m ∈ b :: u := by
              have hne : (b :: u) ≠ ([] : List Nat) := by simp
              rw [List.getLast?_eq_getLast _ hne] at hm2
              injection hm2 with hh
              rw [← hh]
              exact List.getLast_mem hne
            exact Nat.le_of_lt ((List.pairwise_cons.mp hp).1 m hmm)
          · exact ih m hpt hm2 x hxt

/-- A marker-free flattening stays marker-free after dropping tokens. -/
theorem clean_drop (tokens : List Str) (i : Nat)
    (hclean : tokens.flatten.filter isMarkerChar = []) :
    ((tokens.drop i).flatten.filter isMarkerChar) = [] := by
  conv at hclean => rw [← List.take_append_drop i tokens]
  rw [List.flatten_append, List.filter_append] at hclean
  exact (List.append_eq_nil.mp hclean).2

/-- The slot-distribution phase of the distributor emits exactly the payload
into the marker channel when the tokens are marker-free, the payload is
all-marker, and the slots are strictly increasing, valid and non-empty. -/
theorem distributeWithSlots_markers (tokens : List Str) (slots : List Nat)
    (payload : Str) (chunkSize : Nat)
    (hsorted : slots.Pairwise (· < ·))
    (hvalid : ∀ i ∈ slots, i < tokens.length)
    (hclean : tokens.flatten.filter isMarkerChar = [])
    (hne : slots ≠ [])
    (hp : ∀ c ∈ payload, isMarkerChar c = true) :
    (DocumentWatermarker.distributeWithSlots tokens slots payload chunkSize).filter
      isMarkerChar = payload := by
  unfold DocumentWatermarker.distributeWithSlots
  have hmain := appendChunks_markers slots tokens payload chunkSize hsorted hvalid
    (fun i _ => clean_drop tokens i hclean) hp
  rw [hclean, List.nil_append] at hmain
  have hrest := (appendChunks_strip slots tokens payload chunkSize hp).2
  dsimp only
  by_cases h4 : (DocumentWatermarker.appendChunks tokens slots payload chunkSize).2.isEmpty
  · rw [if_pos h4]
    have h4' : (DocumentWatermarker.appendChunks tokens slots payload chunkSize).2 = [] :=
      List.isEmpty_iff.mp h4
    rw [h4', List.append_nil] at hmain
    exact hmain
  · rw [if_neg h4]
    cases hl : slots.getLast? with
    | none =>
        exact absurd (List.getLast?_isSome.mpr hne) (by simp [hl])
    | some lastSlot =>
        have hlmem : lastSlot ∈ slots := by
          rw [List.getLast?_eq_getLast _ hne] at hl
          injection hl with hh
          rw [← hh]
          exact List.getLast_mem hne
        have hlast_le : ∀ x ∈ slots, x ≤ lastSlot :=
          pairwise_lt_le_getLast slots lastSlot hsorted hl
        have hs1 : lastSlot <
            (DocumentWatermarker.appendChunks tokens slots payload chunkSize).1.length := by
          rw [appendChunks_length]
          exact hvalid lastSlot hlmem
        have hafter :
            (((DocumentWatermarker.appendChunks tokens slots payload chunkSize).1.drop
              (lastSlot + 1)).flatten.filter isMarkerChar) = [] := by
          rw [appendChunks_drop slots tokens payload chunkSize (lastSlot + 1)
            (fun i hi => Nat.lt_succ_of_le (hlast_le i hi))]
          exact clean_drop tokens (lastSlot + 1) hclean
        rw [markers_flatten_set _ lastSlot _ hs1 hafter,
          List.filter_eq_self.mpr hrest]
        exact hmain

/-- The selection scan only extends the accumulator. -/
theorem pickLoop_prefix (wordIndexes : List Nat) (count : Nat) :
    ∀ (vals selected : List Nat),
      ∃ t, DocumentWatermarker.pickLoop wordIndexes count vals selected = selected ++ t := by
  intro vals
  induction vals with
  | nil => intro selected; exact ⟨[], by simp [DocumentWatermarker.pickLoop]⟩
  | cons v vs ih =>
      intro selected
      simp only [DocumentWatermarker.pickLoop]
      by_cases hc : count ≤ selected.length
      · exact ⟨[], by simp [hc]⟩
      · rw [if_neg hc]
        by_cases hm : selected.contains (wordIndexes.getD (v % wordIndexes.length) 0)
        · rw [if_pos hm]
          exact ih selected
        · rw [if_neg hm]
          obtain ⟨t, ht⟩ := ih (selected ++ [wordIndexes.getD (v % wordIndexes.length) 0])
          refine ⟨wordIndexes.getD (v % wordIndexes.length) 0 :: t, ?_⟩
          rw [ht, List.append_assoc]
          rfl

/-- The selection scan preserves freedom from duplicates. -/
theorem pickLoop_nodup (wordIndexes : List Nat) (count : Nat) :
    ∀ (vals selected : List Nat), selected.Nodup →
      (DocumentWatermarker.pickLoop wordIndexes count vals selected).Nodup := by
  intro vals
  induction vals with
  | nil => intro selected h; simpa [DocumentWatermarker.pickLoop] using h
  | cons v vs ih =>
      intro selected h
      simp only [DocumentWatermarker.pickLoop]
      by_cases hc : count ≤ selected.length
      · simpa [hc] using h
      · rw [if_neg hc]
        by_cases hm : selected.contains (wordIndexes.getD (v % wordIndexes.length) 0)
        · rw [if_pos hm]
          exact ih selected h
        · rw [if_neg hm]
          apply ih
          refine List.Nodup.append h (List.nodup_singleton _) ?_
          intro a ha hb
          have hab := List.mem_singleton.mp hb
          subst hab
          have hnm : wordIndexes.getD (v % wordIndexes.length) 0 ∉ selected := by
            simpa using hm
          exact hnm ha

/-- Every slot the selection scan returns comes from the accumulator or the
candidate list. -/
theorem pickLoop_subset (wordIndexes : List Nat) (count : Nat)
    (hw : wordIndexes ≠ []) :
    ∀ (vals selected : List Nat), (∀ x ∈ selected, x ∈ wordIndexes) →
      ∀ x ∈ DocumentWatermarker.pickLoop wordIndexes count vals selected,
        x ∈ wordIndexes := by
  intro vals
  induction vals with
  | nil => intro selected h; simpa [DocumentWatermarker.pickLoop] using h
  | cons v vs ih =>
      intro selected h
      simp only [DocumentWatermarker.pickLoop]
      by_cases hc : count ≤ selected.length
      · simpa [hc] using h
      · rw [if_neg hc]
        have hcand : wordIndexes.getD (v % wordIndexes.length) 0 ∈ wordIndexes := by
          have hlen : 0 < wordIndexes.length := List.length_pos.mpr hw
          have hlt : v % wordIndexes.length < wordIndexes.length := Nat.mod_lt _ hlen
          rw [List.getD_eq_getElem _ _ hlt]
          exact List.getElem_mem hlt
        by_cases hm : selected.contains (wordIndexes.getD (v % wordIndexes.length) 0)
        · rw [if_pos hm]
          exact ih selected h
        · rw [if_neg hm]
          apply ih
          intro x hx
          rcases List.mem_append.mp hx with hx1 | hx2
          · exact h x hx1
          · have hx3 := List.mem_singleton.mp hx2
            subst hx3
            exact hcand

/-- The slot picker returns a duplicate-free selection. -/
theorem pickRandomWordSlots_nodup (rng : Nat → Nat) (wordIndexes : List Nat) (count : Nat)
    (h : wordIndexes.Nodup) :
    (DocumentWatermarker.pickRandomWordSlots rng wordIndexes count).Nodup := by
  unfold DocumentWatermarker.pickRandomWordSlots
  by_cases hb : wordIndexes.length ≤ count
  · rw [if_pos hb]; exact h
  · rw [if_neg hb]
    exact pickLoop_nodup wordIndexes count _ [] List.nodup_nil

/-- The slot picker only returns candidate word indexes. -/
theorem pickRandomWordSlots_subset (rng : Nat → Nat) (wordIndexes : List Nat) (count : Nat) :
    ∀ x ∈ DocumentWatermarker.pickRandomWordSlots rng wordIndexes count, x ∈ wordIndexes := by
  unfold DocumentWatermarker.pickRandomWordSlots
  by_cases hb : wordIndexes.length ≤ count
  · rw [if_pos hb]; exact fun x hx => hx
  · rw [if_neg hb]
    have hw : wordIndexes ≠ [] := by
      intro hnil
      rw [hnil] at hb
      simp at hb
    exact pickLoop_subset wordIndexes count hw _ [] (by simp)

/-- The slot picker never returns an empty selection when there are
candidates and at least one slot is requested. -/
theorem pickRandomWordSlots_nonempty (rng : Nat → Nat) (wordIndexes : List Nat) (count : Nat)
    (hw : wordIndexes ≠ []) (hc : 1 ≤ count) :
    DocumentWatermarker.pickRandomWordSlots rng wordIndexes count ≠ [] := by
  unfold DocumentWatermarker.pickRandomWordSlots
  by_cases hb : wordIndexes.length ≤ count
  · rw [if_pos hb]; exact hw
  · rw [if_neg hb]
    have hvals : (List.range (count * 5 * (count * 2))).map rng ≠ [] := by
      have hpos : 0 < count * 5 * (count * 2) :=
        Nat.mul_pos (Nat.mul_pos hc (by norm_num)) (Nat.mul_pos hc (by norm_num))
      simp only [ne_eq, List.map_eq_nil_iff, List.range_eq_nil]
      omega
    cases hv : (List.range (count * 5 * (count * 2))).map rng with
    | nil => exact absurd hv hvals
    | cons v vs =>
        simp only [DocumentWatermarker.pickLoop]
        have h0 : ¬ count ≤ ([] : List Nat).length := by
          simp only [List.length_nil]
          omega
        rw [if_neg h0]
        rw [if_neg (by simp)]
        obtain ⟨t, ht⟩ := pickLoop_prefix wordIndexes count vs
          ([] ++ [wordIndexes.getD (v % wordIndexes.length) 0])
        rw [ht]
        simp

/-- The candidate word indexes are duplicate-free. -/
theorem wordIndexesOf_nodup (tokens : List Str) :
    (DocumentWatermarker.wordIndexesOf tokens).Nodup :=
  (List.nodup_range tokens.length).filter _

/-- Every candidate word index is a valid token index. -/
theorem wordIndexesOf_lt (tokens : List Str) :
    ∀ i ∈ DocumentWatermarker.wordIndexesOf tokens, i < tokens.length := by
  intro i hi
  have := List.mem_filter.mp hi
  exact List.mem_range.mp this.1

/-- The text distributor always asks for at least one slot when there is at
least one candidate. -/
theorem textSlotCount_pos (wordCount payloadLength : Nat) (h : 1 ≤ wordCount) :
    1 ≤ DocumentWatermarker.textSlotCount wordCount payloadLength := by
  simp only [DocumentWatermarker.textSlotCount]
  omega

/-- Distribution feeds exactly the payload into the marker channel: for
marker-free text and an all-marker payload, the markers of the distributed
result, in document order, are the payload. -/
theorem distribute_markers (rng : Nat → Nat) (text payload : Str)
    (htext : text.filter isMarkerChar = [])
    (hp : ∀ c ∈ payload, isMarkerChar c = true) :
    (DocumentWatermarker.distributeInvisiblePayload rng text payload).filter isMarkerChar =
      payload := by
  unfold DocumentWatermarker.distributeInvisiblePayload
  split_ifs with d1
  · rw [List.isEmpty_iff.mp d1]
    exact htext
  · dsimp only
    split_ifs with d2 d3
    · rw [List.filter_append, htext, List.filter_eq_self.mpr hp, List.append_nil]
    · rw [List.filter_append, htext, List.filter_eq_self.mpr hp, List.append_nil]
    · set tokens := DocumentWatermarker.jsSplitWs text with htok
      set wordIndexes := DocumentWatermarker.wordIndexesOf tokens with hwi
      set slotsToUse := DocumentWatermarker.textSlotCount wordIndexes.length payload.length
        with hstu
      set picked := DocumentWatermarker.pickRandomWordSlots rng wordIndexes slotsToUse
        with hpick
      set selectedSlots := List.insertionSort (· ≤ ·) picked with hsel
      have hperm : selectedSlots.Perm picked := List.perm_insertionSort _ _
      have hwne : wordIndexes ≠ [] := by
        intro h0
        rw [h0] at d3
        simp at d3
      have hsorted : selectedSlots.Pairwise (· < ·) := by
        have hs1 : selectedSlots.Sorted (· ≤ ·) := List.sorted_insertionSort _ _
        have hn1 : picked.Nodup :=
          pickRandomWordSlots_nodup rng wordIndexes slotsToUse (wordIndexesOf_nodup tokens)
        have hn2 : selectedSlots.Nodup := (hperm.nodup_iff).mpr hn1
        exact (List.Pairwise.and hs1 hn2).imp (fun hab => lt_of_le_of_ne hab.1 hab.2)
      have hvalid : ∀ i ∈ selectedSlots, i < tokens.length := by
        intro i hi
        exact wordIndexesOf_lt tokens i
          (pickRandomWordSlots_subset rng wordIndexes slotsToUse i (hperm.mem_iff.mp hi))
      have hclean : tokens.flatten.filter isMarkerChar = [] := by
        rw [htok, jsSplitWs_flatten]
        exact htext
      have hne : selectedSlots ≠ [] := by
        have hp1 : picked ≠ [] :=
          pickRandomWordSlots_nonempty rng wordIndexes slotsToUse hwne
            (textSlotCount_pos _ _ (by
              have := List.length_pos.mpr hwne
              omega))
        intro h0
        rw [h0] at hperm
        exact hp1 (List.Perm.nil_eq hperm).symm
      exact distributeWithSlots_markers tokens selectedSlots payload _ hsorted hvalid
        hclean hne hp

/-! ## Helper lemmas: the invisible bit channel (claim C4) -/

/-- Bit collection only sees the marker characters. -/
theorem collect_eq_collect_filter (s : Str) :
    DocumentWatermarker.collectZeroWidthBits s =
      DocumentWatermarker.collectZeroWidthBits (s.filter isMarkerChar) := by
  induction s with
  | nil => rfl
  | cons c cs ih =>
      by_cases hm : isMarkerChar c
      · rw [List.filter_cons_of_pos hm]
        simp only [DocumentWatermarker.collectZeroWidthBits]
        by_cases h0 : c == ZERO_BIT
        · rw [if_pos h0, if_pos h0, ih]
        · rw [if_neg h0, if_neg h0]
          by_cases h1 : c == ONE_BIT
          · rw [if_pos h1, if_pos h1, ih]
          · rw [if_neg h1, if_neg h1]
            exact ih
      · rw [List.filter_cons_of_neg hm]
        simp only [DocumentWatermarker.collectZeroWidthBits]
        simp only [isMarkerChar, Bool.or_eq_true, not_or] at hm
        rw [if_neg hm.1.1, if_neg hm.1.2]
        exact ih

/-- Collecting the bits of the invisible rendering of a bit string recovers
the bit string, with every non-`'1'` character normalized to `'0'`. -/
theorem collect_binaryToInvisibleTextGo (bits : Str) :
    ∀ i : Nat,
      DocumentWatermarker.collectZeroWidthBits
          (DocumentWatermarker.binaryToInvisibleTextGo bits i) =
        bits.map (fun b => if b == '1' then '1' else '0') := by
  induction bits with
  | nil => intro i; rfl
  | cons b rest ih =>
      intro i
      cases rest with
      | nil =>
          simp only [DocumentWatermarker.binaryToInvisibleTextGo]
          by_cases hb : b == '1'
          · rw [if_pos hb]
            have hb' : b = '1' := by simpa using hb
            simp [DocumentWatermarker.collectZeroWidthBits, hb', ONE_BIT, ZERO_BIT]
          · rw [if_neg hb]
            have hb' : ¬ b = '1' := by simpa using hb
            simp [DocumentWatermarker.collectZeroWidthBits, hb', ONE_BIT, ZERO_BIT]
      | cons b2 rest2 =>
          simp only [DocumentWatermarker.binaryToInvisibleTextGo]
          have htail := ih (i + 1)
          by_cases hsep : (i + 1) % 8 == 0
          · rw [if_pos hsep]
            by_cases hb : b == '1'
            · rw [if_pos hb]
              simp only [DocumentWatermarker.collectZeroWidthBits, List.map_cons]
              rw [if_neg (by decide), if_pos (by decide), if_neg (by decide),
                if_neg (by decide)]
              rw [htail]
              simp [hb]
            · rw [if_neg hb]
              simp only [DocumentWatermarker.collectZeroWidthBits, List.map_cons]
              rw [if_pos (by decide), if_neg (by decide), if_neg (by decide)]
              rw [htail]
              simp [hb]
          · rw [if_neg hsep]
            by_cases hb : b == '1'
            · rw [if_pos hb]
              simp only [DocumentWatermarker.collectZeroWidthBits, List.map_cons]
              rw [if_neg (by decide), if_pos (by decide)]
              rw [htail]
              simp [hb]
            · rw [if_neg hb]
              simp only [DocumentWatermarker.collectZeroWidthBits, List.map_cons]
              rw [if_pos (by decide)]
              rw [htail]
              simp [hb]

/-- `natBinAux` emits only the characters `'0'` and `'1'` as long as the fuel
dominates the input. -/
theorem natBinAux_mem : ∀ (fuel n : Nat), n ≤ fuel →
    ∀ c ∈ DocumentWatermarker.natBinAux fuel n, c = '0' ∨ c = '1' := by
  intro fuel
  induction fuel with
  | zero =>
      intro n hn c hc
      have h0 : n = 0 := Nat.le_zero.mp hn
      subst h0
      simp only [DocumentWatermarker.natBinAux, List.mem_singleton] at hc
      subst hc
      left
      decide
  | succ fuel ih =>
      intro n hn c hc
      simp only [DocumentWatermarker.natBinAux] at hc
      by_cases h2 : n < 2
      · rw [if_pos h2] at hc
        simp only [List.mem_singleton] at hc
        subst hc
        interval_cases n
        · left; decide
        · right; decide
      · rw [if_neg h2] at hc
        rcases List.mem_append.mp hc with h | h
        · exact ih (n / 2) (by omega) c h
        · simp only [List.mem_singleton] at h
          subst h
          have hm : n % 2 = 0 ∨ n % 2 = 1 := by omega
          rcases hm with h0 | h0 <;> rw [h0]
          · left; decide
          · right; decide

/-- `charToBits` emits only binary digit characters. -/
theorem charToBits_mem (ch : Char) :
    ∀ c ∈ DocumentWatermarker.charToBits ch, c = '0' ∨ c = '1' := by
  intro c hc
  simp only [DocumentWatermarker.charToBits, DocumentWatermarker.padStartZeros] at hc
  split_ifs at hc
  · rcases List.mem_append.mp hc with h | h
    · left
      exact List.eq_of_mem_replicate h
    · exact natBinAux_mem _ _ le_rfl c h
  · exact natBinAux_mem _ _ le_rfl c hc

/-- The serialized bit stream of a record is a genuine bit string. -/
theorem dataToBinary_mem (d : UltraCompactWatermarkData) :
    ∀ c ∈ DocumentWatermarker.dataToBinary d, c = '0' ∨ c = '1' := by
  intro c hc
  simp only [DocumentWatermarker.dataToBinary, List.mem_flatten, List.mem_map] at hc
  obtain ⟨l, ⟨ch, _, rfl⟩, hcl⟩ := hc
  exact charToBits_mem ch c hcl

/-- Normalizing every character of a genuine bit string to `'0'`/`'1'` is the
identity. -/
theorem map_normalize_id (s : Str) (h : ∀ c ∈ s, c = '0' ∨ c = '1') :
    s.map (fun b => if b == '1' then '1' else '0') = s := by
  induction s with
  | nil => rfl
  | cons c cs ih =>
      simp only [List.map_cons]
      have htl := ih (fun x hx => h x (List.mem_cons_of_mem _ hx))
      rcases h c (List.mem_cons_self _ _) with h0 | h1
      · subst h0
        rw [if_neg (by decide), htl]
      · subst h1
        rw [if_pos (by decide), htl]

/-- Appending one digit multiplies the accumulated binary value by two. -/
theorem binValue_append_digit (a : Str) (c : Char) :
    DocumentWatermarker.binValue (a ++ [c]) =
      2 * DocumentWatermarker.binValue a + (if c == '1' then 1 else 0) := by
  simp [DocumentWatermarker.binValue, List.foldl_append]

/-- A leading `'0'` does not change a binary value. -/
theorem binValue_cons_zero (t : Str) :
    DocumentWatermarker.binValue ('0' :: t) = DocumentWatermarker.binValue t := rfl

/-- Leading zero padding does not change a binary value. -/
theorem binValue_zeros_append (k : Nat) (s : Str) :
    DocumentWatermarker.binValue (List.replicate k '0' ++ s) =
      DocumentWatermarker.binValue s := by
  induction k with
  | zero => rfl
  | succ k ih =>
      rw [List.replicate_succ, List.cons_append, binValue_cons_zero]
      exact ih

/-- `binValue` ignores the `padStart` zeros. -/
theorem binValue_padStartZeros (n : Nat) (s : Str) :
    DocumentWatermarker.binValue (DocumentWatermarker.padStartZeros n s) =
      DocumentWatermarker.binValue s := by
  unfold DocumentWatermarker.padStartZeros
  split_ifs with h
  · exact binValue_zeros_append _ _
  · rfl

/-- `parseInt(·, 2)` inverts `toString(2)`. -/
theorem binValue_natBinAux : ∀ (fuel n : Nat), n ≤ fuel →
    DocumentWatermarker.binValue (DocumentWatermarker.natBinAux fuel n) = n := by
  intro fuel
  induction fuel with
  | zero =>
      intro n hn
      have h0 : n = 0 := Nat.le_zero.mp hn
      subst h0
      decide
  | succ fuel ih =>
      intro n hn
      simp only [DocumentWatermarker.natBinAux]
      by_cases h2 : n < 2
      · rw [if_pos h2]
        interval_cases n <;> decide
      · rw [if_neg h2]
        rw [binValue_append_digit, ih (n / 2) (by omega)]
        have hm : n % 2 = 0 ∨ n % 2 = 1 := by omega
        rcases hm with h0 | h0 <;> rw [h0]
        · rw [if_neg (by decide)]
          omega
        · rw [if_pos (by decide)]
          omega

/-- Decoding a character's 8-bit block recovers its code point. -/
theorem binValue_charToBits (c : Char) :
    DocumentWatermarker.binValue (DocumentWatermarker.charToBits c) = c.toNat := by
  unfold DocumentWatermarker.charToBits
  rw [binValue_padStartZeros]
  exact binValue_natBinAux c.toNat c.toNat le_rfl

/-- The binary rendering of `n < 2 ^ k` has at most `k` digits. -/
theorem natBinAux_length : ∀ (fuel n k : Nat), n < 2 ^ k → 1 ≤ k → n ≤ fuel →
    (DocumentWatermarker.natBinAux fuel n).length ≤ k := by
  intro fuel
  induction fuel with
  | zero =>
      intro n k _ hk hn
      have h0 : n = 0 := Nat.le_zero.mp hn
      subst h0
      simpa [DocumentWatermarker.natBinAux] using hk
  | succ fuel ih =>
      intro n k hnk hk hn
      simp only [DocumentWatermarker.natBinAux]
      by_cases h2 : n < 2
      · rw [if_pos h2]
        simpa using hk
      · rw [if_neg h2]
        rw [List.length_append, List.length_singleton]
        obtain ⟨j, rfl⟩ : ∃ j, k = j + 1 := ⟨k - 1, by omega⟩
        have hj : 1 ≤ j := by
          by_contra hcon
          have hj0 : j = 0 := by omega
          subst hj0
          have : n < 2 := by simpa using hnk
          exact h2 this
        have hdiv : n / 2 < 2 ^ j := by
          rw [pow_succ] at hnk
          omega
        have := ih (n / 2) j hdiv hj (by omega)
        omega

/-- Every character of the JSON serialization stays below 256, so its binary
block is exactly 8 bits wide. -/
theorem charToBits_length (c : Char) (h : c.toNat < 256) :
    (DocumentWatermarker.charToBits c).length = 8 := by
  have h256 : c.toNat < 2 ^ 8 := by
    rw [show (2 : Nat) ^ 8 = 256 from by norm_num]
    exact h
  have hb : (DocumentWatermarker.natBin c.toNat).length ≤ 8 :=
    natBinAux_length c.toNat c.toNat 8 h256 (by norm_num) le_rfl
  simp only [DocumentWatermarker.charToBits, DocumentWatermarker.padStartZeros]
  split_ifs with hlt
  · rw [List.length_append, List.length_replicate]
    omega
  · omega

/-- A list of positive length decomposes as a cons. -/
theorem cons_of_length_pos {l : Str} (h : 0 < l.length) : ∃ a t, l = a :: t := by
  cases l with
  | nil => simp at h
  | cons a t => exact ⟨a, t, rfl⟩

/-- One step of the byte regrouping: a full 8-character block splits off. -/
theorem chunksOf8_block (b rest : Str) (h : b.length = 8) :
    DocumentWatermarker.chunksOf8 (b ++ rest) = b :: DocumentWatermarker.chunksOf8 rest := by
  obtain ⟨c1, b, rfl⟩ := cons_of_length_pos (show 0 < b.length by omega)
  simp only [List.length_cons] at h
  obtain ⟨c2, b, rfl⟩ := cons_of_length_pos (show 0 < b.length by omega)
  simp only [List.length_cons] at h
  obtain ⟨c3, b, rfl⟩ := cons_of_length_pos (show 0 < b.length by omega)
  simp only [List.length_cons] at h
  obtain ⟨c4, b, rfl⟩ := cons_of_length_pos (show 0 < b.length by omega)
  simp only [List.length_cons] at h
  obtain ⟨c5, b, rfl⟩ := cons_of_length_pos (show 0 < b.length by omega)
  simp only [List.length_cons] at h
  obtain ⟨c6, b, rfl⟩ := cons_of_length_pos (show 0 < b.length by omega)
  simp only [List.length_cons] at h
  obtain ⟨c7, b, rfl⟩ := cons_of_length_pos (show 0 < b.length by omega)
  simp only [List.length_cons] at h
  obtain ⟨c8, b, rfl⟩ := cons_of_length_pos (show 0 < b.length by omega)
  simp only [List.length_cons] at h
  have hb : b = [] := List.length_eq_zero.mp (by omega)
  subst hb
  rfl

/-- Regrouping the concatenation of 8-character blocks recovers the blocks. -/
theorem chunksOf8_flatten : ∀ (blocks : List Str), (∀ b ∈ blocks, b.length = 8) →
    DocumentWatermarker.chunksOf8 blocks.flatten = blocks := by
  intro blocks
  induction blocks with
  | nil => intro _; rfl
  | cons b bs ih =>
      intro h
      rw [List.flatten_cons, chunksOf8_block b _ (h b (List.mem_cons_self _ _)),
        ih (fun x hx => h x (List.mem_cons_of_mem _ hx))]

/-- `digitChar` maps a decimal digit to its ASCII code point. -/
theorem digitChar_toNat (d : Nat) (h : d < 10) : (digitChar d).toNat = 48 + d := by
  interval_cases d <;> decide

/-- `natDecimalAux` emits only decimal digit characters. -/
theorem natDecimalAux_digits : ∀ (fuel n : Nat), n ≤ fuel →
    ∀ c ∈ natDecimalAux fuel n, ∃ d, d < 10 ∧ c = digitChar d := by
  intro fuel
  induction fuel with
  | zero =>
      intro n hn c hc
      have h0 : n = 0 := Nat.le_zero.mp hn
      subst h0
      simp only [natDecimalAux, List.mem_singleton] at hc
      exact ⟨0, by omega, hc⟩
  | succ fuel ih =>
      intro n hn c hc
      simp only [natDecimalAux] at hc
      by_cases h10 : n < 10
      · rw [if_pos h10] at hc
        simp only [List.mem_singleton] at hc
        exact ⟨n, h10, hc⟩
      · rw [if_neg h10] at hc
        rcases List.mem_append.mp hc with h | h
        · exact ih (n / 10) (by omega) c h
        · simp only [List.mem_singleton] at h
          exact ⟨n % 10, by omega, h⟩

/-- Every character of a rendered decimal number passes `isDigitChar`. -/
theorem natDecimal_isDigit (n : Nat) :
    ∀ c ∈ natDecimal n, DocumentWatermarker.isDigitChar c = true := by
  intro c hc
  obtain ⟨d, hd, rfl⟩ := natDecimalAux_digits n n le_rfl c hc
  interval_cases d <;> decide

/-- A rendered decimal number is never the empty string. -/
theorem natDecimalAux_ne_nil (fuel n : Nat) : natDecimalAux fuel n ≠ [] := by
  cases fuel with
  | zero => simp [natDecimalAux]
  | succ fuel =>
      simp only [natDecimalAux]
      split_ifs <;> simp

/-- Appending one digit multiplies the accumulated decimal value by ten. -/
theorem decValue_append_digit (a : Str) (c : Char) :
    DocumentWatermarker.decValue (a ++ [c]) =
      10 * DocumentWatermarker.decValue a + (c.toNat - 48) := by
  simp [DocumentWatermarker.decValue, List.foldl_append]

/-- `parseInt` (base 10) inverts the decimal rendering. -/
theorem decValue_natDecimalAux : ∀ (fuel n : Nat), n ≤ fuel →
    DocumentWatermarker.decValue (natDecimalAux fuel n) = n := by
  intro fuel
  induction fuel with
  | zero =>
      intro n hn
      have h0 : n = 0 := Nat.le_zero.mp hn
      subst h0
      decide
  | succ fuel ih =>
      intro n hn
      simp only [natDecimalAux]
      by_cases h10 : n < 10
      · rw [if_pos h10]
        have hs : DocumentWatermarker.decValue [digitChar n] = (digitChar n).toNat - 48 := by
          simp [DocumentWatermarker.decValue]
        rw [hs, digitChar_toNat n h10]
        omega
      · rw [if_neg h10]
        rw [decValue_append_digit, ih (n / 10) (by omega), digitChar_toNat (n % 10) (by omega)]
        omega

/-- `takeWhile` passes over a prefix on which the predicate holds. -/
theorem takeWhile_append_all (p : Char → Bool) (f l : Str) (hf : ∀ c ∈ f, p c = true) :
    (f ++ l).takeWhile p = f ++ l.takeWhile p := by
  induction f with
  | nil => rfl
  | cons a f ih =>
      rw [List.cons_append, List.takeWhile_cons_of_pos (hf a (List.mem_cons_self _ _)),
        ih (fun c hc => hf c (List.mem_cons_of_mem _ hc)), List.cons_append]

/-- `dropWhile` discards a prefix on which the predicate holds. -/
theorem dropWhile_append_all (p : Char → Bool) (f l : Str) (hf : ∀ c ∈ f, p c = true) :
    (f ++ l).dropWhile p = l.dropWhile p := by
  induction f with
  | nil => rfl
  | cons a f ih =>
      rw [List.cons_append, List.dropWhile_cons_of_pos (hf a (List.mem_cons_self _ _)),
        ih (fun c hc => hf c (List.mem_cons_of_mem _ hc))]

/-- `expectPrefix` succeeds on its own prefix and returns the remainder. -/
theorem expectPrefix_append (pre rest : Str) :
    DocumentWatermarker.expectPrefix pre (pre ++ rest) = some rest := by
  unfold DocumentWatermarker.expectPrefix
  rw [List.take_left, List.drop_left, if_pos rfl]

/-- `takeStringLit` consumes a quote-free field up to the closing quote. -/
theorem takeStringLit_append (f rest : Str) (hf : ∀ c ∈ f, c ≠ '"') :
    DocumentWatermarker.takeStringLit (f ++ '"' :: rest) = some (f, rest) := by
  unfold DocumentWatermarker.takeStringLit
  have hp : ∀ c ∈ f, decide (c ≠ '"') = true := by
    intro c hc
    simpa using hf c hc
  rw [dropWhile_append_all _ _ _ hp, takeWhile_append_all _ _ _ hp,
    List.dropWhile_cons_of_neg (by decide), List.takeWhile_cons_of_neg (by decide),
    List.append_nil]
  rfl

/-- A safe JSON character is not the double quote. -/
theorem safeJsonChar_ne_quote (c : Char) (h : safeJsonChar c = true) : c ≠ '"' := by
  simp only [safeJsonChar, Bool.and_eq_true, decide_eq_true_eq] at h
  tauto

/-- A safe JSON character has an 8-bit code point. -/
theorem safeJsonChar_lt256 (c : Char) (h : safeJsonChar c = true) : c.toNat < 256 := by
  simp only [safeJsonChar, Bool.and_eq_true, decide_eq_true_eq] at h
  omega

/-- `expectPrefix` succeeds on exactly its own prefix, leaving nothing. -/
theorem expectPrefix_refl (pre : Str) :
    DocumentWatermarker.expectPrefix pre pre = some [] := by
  have h := expectPrefix_append pre []
  rw [List.append_nil] at h
  exact h

/-- Every character of the canonical JSON serialization has an 8-bit code
point whenever the three string fields are safe printable ASCII. -/
theorem jsonOfUltraCompact_lt256 (d : UltraCompactWatermarkData)
    (hf : ∀ c ∈ d.f, safeJsonChar c = true)
    (hs : ∀ c ∈ d.s, safeJsonChar c = true)
    (hc : ∀ c ∈ d.c, safeJsonChar c = true) :
    ∀ ch ∈ DocumentWatermarker.jsonOfUltraCompact d, ch.toNat < 256 := by
  intro ch hch
  simp only [DocumentWatermarker.jsonOfUltraCompact, List.mem_append] at hch
  rcases hch with ((((((((h | h) | h) | h) | h) | h) | h) | h) | h)
  · exact (by decide : ∀ x ∈ ("\x7b\"f\":\"".data : Str), x.toNat < 256) ch h
  · exact safeJsonChar_lt256 ch (hf ch h)
  · exact (by decide : ∀ x ∈ ("\",\"s\":\"".data : Str), x.toNat < 256) ch h
  · exact safeJsonChar_lt256 ch (hs ch h)
  · exact (by decide : ∀ x ∈ ("\",\"t\":".data : Str), x.toNat < 256) ch h
  · obtain ⟨dd, hdd, rfl⟩ := natDecimalAux_digits d.t d.t le_rfl ch h
    rw [digitChar_toNat dd hdd]
    omega
  · exact (by decide : ∀ x ∈ ((",\"c\":\"".data : Str)), x.toNat < 256) ch h
  · exact safeJsonChar_lt256 ch (hc ch h)
  · exact (by decide : ∀ x ∈ ("\"\x7d".data : Str), x.toNat < 256) ch h

/-- Reduction of an `Option` bind against a `some` result. -/
theorem option_bind_eq_some {α β : Type} (x : Option α) (f : α → Option β) (b : β) :
    (x >>= f) = some b ↔ ∃ a, x = some a ∧ f a = some b := by
  cases x <;> simp

/-- The restricted `JSON.parse` model inverts the canonical `JSON.stringify`
layout on records whose string fields are safe printable ASCII. -/
theorem parse_canonical (d : UltraCompactWatermarkData)
    (hf : ∀ c ∈ d.f, safeJsonChar c = true)
    (hs : ∀ c ∈ d.s, safeJsonChar c = true)
    (hc : ∀ c ∈ d.c, safeJsonChar c = true) :
    DocumentWatermarker.parseUltraCompact (DocumentWatermarker.jsonOfUltraCompact d) =
      some d := by
  have hfq : ∀ c ∈ d.f, c ≠ '"' := fun c h => safeJsonChar_ne_quote c (hf c h)
  have hsq : ∀ c ∈ d.s, c ≠ '"' := fun c h => safeJsonChar_ne_quote c (hs c h)
  have hcq : ∀ c ∈ d.c, c ≠ '"' := fun c h => safeJsonChar_ne_quote c (hc c h)
  have e0 : DocumentWatermarker.jsonOfUltraCompact d =
      "\x7b\"f\":\"".data ++ (d.f ++ ("\",\"s\":\"".data ++ (d.s ++ ("\",\"t\":".data ++
        (natDecimal d.t ++ (",\"c\":\"".data ++ (d.c ++ "\"\x7d".data))))))) := by
    simp [DocumentWatermarker.jsonOfUltraCompact, List.append_assoc]
  rw [e0]
  unfold DocumentWatermarker.parseUltraCompact
  simp only [option_bind_eq_some]
  refine ⟨_, expectPrefix_append _ _, _, takeStringLit_append _ _ hfq, _,
    expectPrefix_append _ _, _, takeStringLit_append _ _ hsq, _, expectPrefix_append _ _, ?_⟩
  have hTW : List.takeWhile DocumentWatermarker.isDigitChar
      (natDecimal d.t ++ ([',', '\"', 'c', '\"', ':', '\"'] ++ (d.c ++ ['\"', '}']))) =
      natDecimal d.t := by
    rw [takeWhile_append_all _ _ _ (natDecimal_isDigit d.t), List.cons_append,
      List.takeWhile_cons_of_neg (by decide), List.append_nil]
  have hDW : List.dropWhile DocumentWatermarker.isDigitChar
      (natDecimal d.t ++ ([',', '\"', 'c', '\"', ':', '\"'] ++ (d.c ++ ['\"', '}']))) =
      [',', '\"', 'c', '\"', ':', '\"'] ++ (d.c ++ ['\"', '}']) := by
    rw [dropWhile_append_all _ _ _ (natDecimal_isDigit d.t), List.cons_append,
      List.dropWhile_cons_of_neg (by decide)]
  rw [hTW, hDW, if_neg (by
    simp only [List.isEmpty_iff]
    exact natDecimalAux_ne_nil d.t d.t)]
  simp only [option_bind_eq_some]
  refine ⟨_, expectPrefix_append _ _, _, takeStringLit_append _ _ hcq, _,
    expectPrefix_refl _, ?_⟩
  rw [show DocumentWatermarker.decValue (natDecimal d.t) = d.t from
    decValue_natDecimalAux d.t d.t le_rfl]
  rfl

/-- The serialized bit stream of a record is never empty. -/
theorem dataToBinary_ne_nil (d : UltraCompactWatermarkData) :
    DocumentWatermarker.dataToBinary d ≠ [] := by
  intro h
  unfold DocumentWatermarker.dataToBinary DocumentWatermarker.jsonOfUltraCompact at h
  rw [show ("\x7b\"f\":\"".data : Str) = '\x7b' :: "\"f\":\"".data from rfl,
    List.cons_append, List.cons_append, List.cons_append, List.cons_append,
    List.cons_append, List.cons_append, List.cons_append, List.cons_append,
    List.map_cons, List.flatten_cons] at h
  exact absurd (List.append_eq_nil.mp h).1 (by decide)

/-- `binaryToData` inverts `dataToBinary` on records whose string fields are
safe printable ASCII. -/
theorem binaryToData_dataToBinary (d : UltraCompactWatermarkData)
    (hf : ∀ c ∈ d.f, safeJsonChar c = true)
    (hs : ∀ c ∈ d.s, safeJsonChar c = true)
    (hc : ∀ c ∈ d.c, safeJsonChar c = true) :
    DocumentWatermarker.binaryToData (DocumentWatermarker.dataToBinary d) = some d := by
  unfold DocumentWatermarker.binaryToData DocumentWatermarker.dataToBinary
  rw [chunksOf8_flatten ((DocumentWatermarker.jsonOfUltraCompact d).map
      DocumentWatermarker.charToBits)
    (by
      intro b hb
      obtain ⟨ch, hch, rfl⟩ := List.mem_map.mp hb
      exact charToBits_length ch (jsonOfUltraCompact_lt256 d hf hs hc ch hch))]
  rw [List.map_map]
  have hid : ∀ ch ∈ DocumentWatermarker.jsonOfUltraCompact d,
      ((fun b => Char.ofNat (DocumentWatermarker.binValue b)) ∘
        DocumentWatermarker.charToBits) ch = id ch := by
    intro ch _
    simp only [Function.comp_apply, binValue_charToBits, Char.ofNat_toNat, id_eq]
  rw [List.map_congr_left hid, List.map_id]
  exact parse_canonical d hf hs hc

/-! ## Claim C4 -/

/-- C4: for every well-formed watermark record — its identity-hash, vault
secret and content-hash strings made of safe printable ASCII (the hex/decimal
alphabets the pipeline stores), embedded into marker-free text —
`extractWatermark` applied to the `embedWatermark` output reproduces the
record field-wise: `fingerprintHash`, vault `secret`, `timestamp` and
`contentHash` all agree, including the case `contentHash = ""`. -/
theorem C4_embed_extract_roundtrip (rng : Nat → Nat) (text : Str) (wd : WatermarkData)
    (htext : text.filter isMarkerChar = [])
    (hf : ∀ c ∈ wd.fingerprintHash, safeJsonChar c = true)
    (hs : ∀ c ∈ wd.vault.secret, safeJsonChar c = true)
    (hc : ∀ c ∈ wd.contentHash, safeJsonChar c = true) :
    ∃ wd' : WatermarkData,
      DocumentWatermarker.extractWatermark
          (DocumentWatermarker.embedWatermark rng text wd).watermarkedText = some wd' ∧
      wd'.fingerprintHash = wd.fingerprintHash ∧
      wd'.vault.secret = wd.vault.secret ∧
      wd'.timestamp = wd.timestamp ∧
      wd'.contentHash = wd.contentHash := by
  refine ⟨{ fingerprintHash := wd.fingerprintHash,
            vault := { vault := [], secret := wd.vault.secret, polynomial := [] },
            timestamp := wd.timestamp,
            contentHash := wd.contentHash }, ?_, rfl, rfl, rfl, rfl⟩
  have hwm : (DocumentWatermarker.embedWatermark rng text wd).watermarkedText =
      DocumentWatermarker.distributeInvisiblePayload rng text
        (DocumentWatermarker.binaryToInvisibleText (DocumentWatermarker.dataToBinary
          { f := wd.fingerprintHash, s := wd.vault.secret,
            t := wd.timestamp, c := wd.contentHash })) := rfl
  have hp : ∀ c ∈ DocumentWatermarker.binaryToInvisibleText (DocumentWatermarker.dataToBinary
      { f := wd.fingerprintHash, s := wd.vault.secret,
        t := wd.timestamp, c := wd.contentHash }), isMarkerChar c = true :=
    fun c hcm => binaryToInvisibleTextGo_markers _ 0 c hcm
  have hfilter := distribute_markers rng text _ htext hp
  have hcollect : DocumentWatermarker.collectZeroWidthBits
      (DocumentWatermarker.distributeInvisiblePayload rng text
        (DocumentWatermarker.binaryToInvisibleText (DocumentWatermarker.dataToBinary
          { f := wd.fingerprintHash, s := wd.vault.secret,
            t := wd.timestamp, c := wd.contentHash }))) =
      DocumentWatermarker.dataToBinary
        { f := wd.fingerprintHash, s := wd.vault.secret,
          t := wd.timestamp, c := wd.contentHash } := by
    rw [collect_eq_collect_filter, hfilter]
    exact (collect_binaryToInvisibleTextGo _ 0).trans
      (map_normalize_id _ (dataToBinary_mem _))
  have hefz : DocumentWatermarker.extractFromZeroWidth
      ((DocumentWatermarker.embedWatermark rng text wd).watermarkedText) =
      some (DocumentWatermarker.dataToBinary
        { f := wd.fingerprintHash, s := wd.vault.secret,
          t := wd.timestamp, c := wd.contentHash }) := by
    rw [hwm]
    unfold DocumentWatermarker.extractFromZeroWidth
    simp only [hcollect]
    rw [if_neg (by
      simp only [List.isEmpty_iff]
      exact dataToBinary_ne_nil _)]
  unfold DocumentWatermarker.extractWatermark
  simp only [hefz]
  rw [binaryToData_dataToBinary
    { f := wd.fingerprintHash, s := wd.vault.secret,
      t := wd.timestamp, c := wd.contentHash } hf hs hc]

/-- Witness for C4 at a concrete record (with empty content hash), a concrete
document text and a concrete random stream. -/
theorem C4_embed_extract_roundtrip_witness :
    (("Confidential design review notes".data : Str).filter isMarkerChar = []) ∧
    ∃ wd' : WatermarkData,
      DocumentWatermarker.extractWatermark
          (DocumentWatermarker.embedWatermark (fun _ => 0)
            "Confidential design review notes".data
            { fingerprintHash := "a1b2c3d4".data,
              vault := { vault := [], secret := "01020304".data, polynomial := [] },
              timestamp := 1700000000,
              contentHash := [] }).watermarkedText = some wd' ∧
      wd'.fingerprintHash = "a1b2c3d4".data ∧
      wd'.vault.secret = "01020304".data ∧
      wd'.timestamp = 1700000000 ∧
      wd'.contentHash = [] :=
  ⟨by decide,
    C4_embed_extract_roundtrip (fun _ => 0) "Confidential design review notes".data
      { fingerprintHash := "a1b2c3d4".data,
        vault := { vault := [], secret := "01020304".data, polynomial := [] },
        timestamp := 1700000000,
        contentHash := [] }
      (by decide) (by decide) (by decide) (by decide)⟩
